import Mathlib

/-!
Verification development for the graph evaluator of `rust-autograd`
(`src/eval.rs`).

The evaluator works on a directed acyclic graph of tensor nodes.  Each node
carries an operator and an ordered list of input nodes.  Evaluation state is a
pair of maps keyed by node identity:

* the Variable Map (`ctx.variables : HashMap<Tensor, NdArray>`), persistent
  storage of externally materialised arrays, and
* the Output Cache (`ctx.outputs : HashMap<Tensor, OpComputeResult>`), a
  per-session memo of computed results, delegate markers and failures.

The embedding below is a direct translation of `src/eval.rs`:

* arrays (`ndarray::Array<f32, IxDyn>`) are modelled as `List Int`; none of
  the evaluator's control flow inspects array contents, so the element type is
  irrelevant to the properties proved here;
* a `Tensor` is a first-order tree: an operator id plus the ordered input
  list.  Rust hashes tensors by node identity; structurally equal trees model
  the same node, so map lookups by structural equality coincide with Rust's
  keyed lookups;
* operators are an environment `Ops : Nat → Op` mapping the operator id
  stored in a node to its behaviour, mirroring the trait object `op: Box<Op>`;
* Rust panics (`panic!`, `unwrap()` on `None`/`Err`, `unreachable!()`, index
  out of bounds) are modelled as an `Except EvalPanic` error, so an aborted
  evaluation is an `Except.error` value;
* the in-place mutation performed by `compute_inplace` through aliased
  mutable references is modelled by computing the new value of the first
  input's buffer and writing it back to the physical location that buffer
  occupies (its Variable Map entry, or the `Value` entry at the end of its
  delegate chain), before the ownership-migration step runs.
-/

/-- Model of `ndarray_ext::NdArray` (a dynamic-dimension `f32` array).  The
evaluator never inspects array contents, so arrays are modelled as lists of
integers. -/
abbrev NdArray := List Int

/-- `OpComputeErrorStatus` from the crate root: either a redirect marker
`Delegate { to }` ("my value lives at `inputs[to]`") or a fatal input
validation failure `BadInput(msg)`. -/
inductive OpComputeErrorStatus : Type where
  | Delegate (toIdx : Nat)
  | BadInput (msg : String)
deriving DecidableEq

/-- `type OpComputeResult = Result<NdArray, OpComputeErrorStatus>;` -/
abbrev OpComputeResult := Except OpComputeErrorStatus NdArray

/-- A graph node (`tensor::Tensor`): an operator id plus the fixed ordered
list of input nodes.  Node identity is structural equality of this tree. -/
inductive Tensor : Type where
  | mk (opId : Nat) (inputs : List Tensor)

/-- The operator id carried by a node. -/
def Tensor.opId : Tensor → Nat
  | .mk o _ => o

/-- The ordered input list of a node (`target.inputs`). -/
def Tensor.inputs : Tensor → List Tensor
  | .mk _ i => i

mutual

/-- Structural boolean equality on tensors. -/
def Tensor.beq : Tensor → Tensor → Bool
  | .mk o1 i1, .mk o2 i2 => o1 == o2 && Tensor.beqList i1 i2

/-- Structural boolean equality on tensor lists. -/
def Tensor.beqList : List Tensor → List Tensor → Bool
  | [], [] => true
  | x :: xs, y :: ys => Tensor.beq x y && Tensor.beqList xs ys
  | _, _ => false

end

mutual

theorem Tensor.beq_iff : ∀ a b : Tensor, Tensor.beq a b = true ↔ a = b
  | .mk o1 i1, .mk o2 i2 => by
    simp only [Tensor.beq, Bool.and_eq_true, beq_iff_eq, Tensor.mk.injEq]
    exact and_congr Iff.rfl (Tensor.beqList_iff i1 i2)

theorem Tensor.beqList_iff : ∀ a b : List Tensor, Tensor.beqList a b = true ↔ a = b
  | [], [] => by simp [Tensor.beqList]
  | [], _ :: _ => by simp [Tensor.beqList]
  | _ :: _, [] => by simp [Tensor.beqList]
  | x :: xs, y :: ys => by
    simp only [Tensor.beqList, Bool.and_eq_true, List.cons.injEq]
    exact and_congr (Tensor.beq_iff x y) (Tensor.beqList_iff xs ys)

end

instance : DecidableEq Tensor := fun a b =>
  decidable_of_iff (Tensor.beq a b = true) (Tensor.beq_iff a b)

/-- An operator (`ops::Op` trait object): whether it is in-place, the
allocating kernel `compute`, and the in-place kernel `compute_inplace`.
`compute_inplace` mutates its first argument's buffer in place; the model
returns the new contents of that buffer on success, or the `BadInput`
diagnostic message on failure. -/
structure Op : Type where
  inplace : Bool
  compute : List NdArray → OpComputeResult
  compute_inplace : List NdArray → Except String NdArray

/-- The operator environment: resolves a node's operator id to its operator,
mirroring the `op` trait object stored in each Rust node. -/
abbrev Ops := Nat → Op

/-- `type OutputMap = HashMap<Tensor, OpComputeResult>;` -/
abbrev OutputMap := Tensor → Option OpComputeResult

/-- `type VariableMap = HashMap<Tensor, NdArray>;` -/
abbrev VariableMap := Tensor → Option NdArray

/-- `HashMap::insert` (functional): update key `k` to value `v`. -/
def mapUpd {β : Type} (m : Tensor → Option β) (k : Tensor) (v : β) :
    Tensor → Option β :=
  fun q => if q = k then some v else m q

/-- `HashMap::remove` (functional): drop key `k`. -/
def mapDel {β : Type} (m : Tensor → Option β) (k : Tensor) :
    Tensor → Option β :=
  fun q => if q = k then none else m q

/-- The empty map. -/
def mapEmpty {β : Type} : Tensor → Option β := fun _ => none

/-- The ways in which the Rust evaluator can abort (panic).  `badInput x msg`
is the `panic!(format!("autograd failed: {}, msg: {}", x, msg))` raised when
chain resolution meets a `BadInput` entry; `inplaceBadInput msg` is the
`panic!(msg)` raised when `compute_inplace` fails; `unwrapNone` and
`unwrapErr` are `unwrap()` on `None` and on `Err`; `indexOutOfBounds` is a
slice-index panic; `unreachableInplace` is the `unreachable!()` branch of the
in-place migration in `perform_eval`. -/
inductive EvalPanic : Type where
  | badInput (x : Tensor) (msg : String)
  | inplaceBadInput (msg : String)
  | unwrapNone
  | unwrapErr
  | indexOutOfBounds
  | unreachableInplace
deriving DecidableEq

theorem Tensor.sizeOf_inputs_lt (t : Tensor) : sizeOf t.inputs < sizeOf t := by
  cases t with
  | mk o i =>
    simp only [Tensor.inputs, Tensor.mk.sizeOf_spec]
    omega

theorem Tensor.mem_of_get?_eq_some {l : List Tensor} {i : Nat} {a : Tensor}
    (h : l.get? i = some a) : a ∈ l := by
  induction l generalizing i with
  | nil => simp [List.get?] at h
  | cons x xs ih =>
    cases i with
    | zero => simp [List.get?] at h; simp [h]
    | succ n =>
      simp only [List.get?] at h
      exact List.mem_cons_of_mem x (ih h)

/-- `seek_array` from `src/eval.rs`: starting from a node `x` assumed to be
in the memo, follow `Delegate { to: i }` markers through `x.inputs[i]` until
a `Value` is found (return its array) or a `BadInput` entry is met (panic
with the original message).  `memo.get(x).unwrap()` on an absent key panics
(`unwrapNone`). -/
def seek_array (memo : OutputMap) (x : Tensor) : Except EvalPanic NdArray :=
  match memo x with
  | none => .error .unwrapNone
  | some (.ok arr) => .ok arr
  | some (.error (.BadInput msg)) => .error (.badInput x msg)
  | some (.error (.Delegate i)) =>
    match h : x.inputs.get? i with
    | some x' => seek_array memo x'
    | none => .error .indexOutOfBounds
termination_by sizeOf x
decreasing_by
  have h1 := List.sizeOf_lt_of_mem (Tensor.mem_of_get?_eq_some h)
  have h2 := Tensor.sizeOf_inputs_lt x
  omega

/-- `seek_array_owner` from `src/eval.rs`: starting from node `x`, follow
`Delegate { to: i }` markers; the owner is the first node found whose memo
entry is a `Value`, or the first node absent from the memo altogether (its
array was physically relocated elsewhere).  A `BadInput` entry on the chain
panics with the original message. -/
def seek_array_owner (memo : OutputMap) (x : Tensor) : Except EvalPanic Tensor :=
  match memo x with
  | none => .ok x
  | some (.ok _) => .ok x
  | some (.error (.BadInput msg)) => .error (.badInput x msg)
  | some (.error (.Delegate i)) =>
    match h : x.inputs.get? i with
    | some x' => seek_array_owner memo x'
    | none => .error .indexOutOfBounds
termination_by sizeOf x
decreasing_by
  have h1 := List.sizeOf_lt_of_mem (Tensor.mem_of_get?_eq_some h)
  have h2 := Tensor.sizeOf_inputs_lt x
  omega

/-- Assembly of the ordered input-array list (`** make xs **` in
`perform_eval`): each input is taken from the Variable Map when present,
otherwise resolved through the memo by `seek_array`. -/
def make_xs (vars : VariableMap) (memo : OutputMap) :
    List Tensor → Except EvalPanic (List NdArray)
  | [] => .ok []
  | x :: rest =>
    match (match vars x with
           | some a => Except.ok a
           | none => seek_array memo x) with
    | .error e => .error e
    | .ok a =>
      match make_xs vars memo rest with
      | .error e => .error e
      | .ok tl => .ok (a :: tl)

/-- Model of the in-place mutation performed by `compute_inplace` through the
aliased mutable slice: the first input's buffer now holds `newArr`.  That
buffer physically lives in the Variable Map entry of `x` when present, and
otherwise in the `Value` entry at the end of `x`'s delegate chain. -/
def write_mutated (vars : VariableMap) (memo : OutputMap) (x : Tensor)
    (newArr : NdArray) : Except EvalPanic (VariableMap × OutputMap) :=
  match vars x with
  | some _ => .ok (mapUpd vars x newArr, memo)
  | none =>
    match seek_array_owner memo x with
    | .error e => .error e
    | .ok own => .ok (vars, mapUpd memo own (.ok newArr))

/-- The storage-migration step of `perform_eval` for a successful in-place
operator (`// ** cache the output **`, `else` branch): move `inputs[0]`'s
entry from the memo to `target`'s identity in the memo, or failing that move
its Variable Map entry to `target`'s identity in the Variable Map; if neither
exists the `unreachable!()` branch is hit. -/
def migrate_inplace (target x : Tensor) (vars : VariableMap) (memo : OutputMap) :
    Except EvalPanic (VariableMap × OutputMap) :=
  match memo x with
  | some y => .ok (vars, mapUpd (mapDel memo x) target y)
  | none =>
    match vars x with
    | some y => .ok (mapUpd (mapDel vars x) target y, memo)
    | none => .error .unreachableInplace

/-- The non-memoized tail of `perform_eval` (after the recursive resolution
of the inputs): assemble `xs`, dispatch on `target.op.inplace()`, and either
cache the allocating result under `target` or run the in-place kernel and
migrate storage. -/
def finish_eval (ops : Ops) (target : Tensor) (vars : VariableMap)
    (memo : OutputMap) : Except EvalPanic (VariableMap × OutputMap) :=
  match make_xs vars memo target.inputs with
  | .error e => .error e
  | .ok xs =>
    if (ops target.opId).inplace then
      match (ops target.opId).compute_inplace xs with
      | .error msg => .error (.inplaceBadInput msg)
      | .ok newArr =>
        match target.inputs.get? 0 with
        | none => .error .indexOutOfBounds
        | some x =>
          match write_mutated vars memo x newArr with
          | .error e => .error e
          | .ok (vars2, memo2) => migrate_inplace target x vars2 memo2
    else
      .ok (vars, mapUpd memo target ((ops target.opId).compute xs))

mutual

/-- `perform_eval` from `src/eval.rs`: if `target` is already in the Variable
Map or the memo, return immediately; otherwise recursively evaluate every
input left to right and then run `finish_eval`. -/
def perform_eval (ops : Ops) (target : Tensor) (vars : VariableMap)
    (memo : OutputMap) : Except EvalPanic (VariableMap × OutputMap) :=
  if (vars target).isSome || (memo target).isSome then
    .ok (vars, memo)
  else
    match perform_eval_list ops target.inputs vars memo with
    | .error e => .error e
    | .ok (vars1, memo1) => finish_eval ops target vars1 memo1
termination_by sizeOf target
decreasing_by
  exact Tensor.sizeOf_inputs_lt target

/-- The `for x in inputs.iter() { perform_eval(x, ...) }` loop: evaluate a
list of nodes left to right, threading the state. -/
def perform_eval_list (ops : Ops) (ts : List Tensor) (vars : VariableMap)
    (memo : OutputMap) : Except EvalPanic (VariableMap × OutputMap) :=
  match ts with
  | [] => .ok (vars, memo)
  | x :: rest =>
    match perform_eval ops x vars memo with
    | .error e => .error e
    | .ok (vars1, memo1) => perform_eval_list ops rest vars1 memo1
termination_by sizeOf ts
decreasing_by
  all_goals simp only [List.cons.sizeOf_spec]
  all_goals omega

end

/-- The owner table of `eval_tensors`
(`HashMap::<&Tensor, (NdArray, usize)>`), instrumented with provenance: each
entry stores the array, a flag that is `true` when the array is the physical
original moved out of its store by `memo.remove` (and `false` when it was
produced by `.clone()` from the Variable Map), and the shared count. -/
abbrev OwnerMap := Tensor → Option ((NdArray × Bool) × Nat)

/-- The first loop of `eval_tensors` (`// build owner2arr and owners`): for
each requested node, resolve its true owner (the node itself when it is a
Variable Map key, otherwise `seek_array_owner`), then either bump the owner's
shared count or — on first sight — store its array with count 1.  A
cache-resolved owner's array is physically removed from the memo
(`memo.remove(owner).unwrap().unwrap()`); a Variable-Map-resolved owner's
array is cloned (`var.clone()`) and the Variable Map entry stays. -/
def build_owners (vars : VariableMap) :
    List Tensor → OutputMap → OwnerMap →
      Except EvalPanic (OutputMap × OwnerMap × List Tensor)
  | [], memo, o2a => .ok (memo, o2a, [])
  | t :: rest, memo, o2a =>
    match vars t with
    | some var =>
      match o2a t with
      | some (entry, c) =>
        match build_owners vars rest memo (mapUpd o2a t (entry, c + 1)) with
        | .error e => .error e
        | .ok (memo', o2a'', owners) => .ok (memo', o2a'', t :: owners)
      | none =>
        match build_owners vars rest memo (mapUpd o2a t ((var, false), 1)) with
        | .error e => .error e
        | .ok (memo', o2a'', owners) => .ok (memo', o2a'', t :: owners)
    | none =>
      match seek_array_owner memo t with
      | .error e => .error e
      | .ok owner =>
        match o2a owner with
        | some (entry, c) =>
          match build_owners vars rest memo (mapUpd o2a owner (entry, c + 1)) with
          | .error e => .error e
          | .ok (memo', o2a'', owners) => .ok (memo', o2a'', owner :: owners)
        | none =>
          match memo owner with
          | none => .error .unwrapNone
          | some (.error _) => .error .unwrapErr
          | some (.ok arr) =>
            match build_owners vars rest (mapDel memo owner)
                (mapUpd o2a owner ((arr, true), 1)) with
            | .error e => .error e
            | .ok (memo', o2a'', owners) => .ok (memo', o2a'', owner :: owners)

/-- The second loop of `eval_tensors` (`// return arrays`): emit one array
per owner in request order.  While the owner's remaining shared count is at
least 2, decrement it and emit `arr.clone()` (flagged `false`); at count 1,
remove the table entry and emit the table's array itself (its provenance
flag).  A missing table entry is the `owner2arr.remove(owner).unwrap()`
panic. -/
def emit_results :
    List Tensor → OwnerMap → Except EvalPanic (List (NdArray × Bool) × OwnerMap)
  | [], o2a => .ok ([], o2a)
  | owner :: rest, o2a =>
    match o2a owner with
    | none => .error .unwrapNone
    | some ((arr, orig), c) =>
      if 2 ≤ c then
        match emit_results rest (mapUpd o2a owner ((arr, orig), c - 1)) with
        | .error e => .error e
        | .ok (out, o2aF) => .ok ((arr, false) :: out, o2aF)
      else
        match emit_results rest (mapDel o2a owner) with
        | .error e => .error e
        | .ok (out, o2aF) => .ok ((arr, orig) :: out, o2aF)

/-- `eval_tensors` from `src/eval.rs`, instrumented: run the graph walk over
every requested node, build the owner table, and emit the results.  Each
emitted array carries a flag that is `true` exactly when it is the physical
original (never passed through `.clone()`). -/
def eval_tensors_cl (ops : Ops) (tensors : List Tensor) (vars : VariableMap)
    (memo : OutputMap) :
    Except EvalPanic (List (NdArray × Bool) × VariableMap × OutputMap) :=
  match perform_eval_list ops tensors vars memo with
  | .error e => .error e
  | .ok (vars1, memo1) =>
    match build_owners vars1 tensors memo1 mapEmpty with
    | .error e => .error e
    | .ok (memo2, o2a, owners) =>
      match emit_results owners o2a with
      | .error e => .error e
      | .ok (out, _) => .ok (out, vars1, memo2)

/-- `eval_tensors` from `src/eval.rs`: the returned arrays (provenance flags
stripped) together with the final Variable Map and memo. -/
def eval_tensors (ops : Ops) (tensors : List Tensor) (vars : VariableMap)
    (memo : OutputMap) :
    Except EvalPanic (List NdArray × VariableMap × OutputMap) :=
  (eval_tensors_cl ops tensors vars memo).map (fun r => (r.1.map Prod.fst, r.2))

/-- The evaluation context (`context::Context`): `vars` models the
`ctx.variables` Variable Map and `outputs` the `ctx.outputs` Output Cache. -/
structure Context : Type where
  vars : VariableMap
  outputs : OutputMap

/-- `eval` from `src/eval.rs`: evaluate the requested tensors with
`eval_tensors` and clear the output cache afterwards. -/
def eval (ops : Ops) (xs : List Tensor) (ctx : Context) :
    Except EvalPanic (List NdArray × Context) :=
  match eval_tensors ops xs ctx.vars ctx.outputs with
  | .error e => .error e
  | .ok (ret, vars, _) => .ok (ret, ⟨vars, mapEmpty⟩)

/-- The read-out loop of `eval_tensors_ref`: for each requested node, return
the Variable Map entry when present, otherwise the `Value` stored at the
node's owner (`memo.get(owner).unwrap().as_ref().unwrap()`).  Nothing is
removed and nothing is cloned. -/
def ref_results (vars : VariableMap) (memo : OutputMap) :
    List Tensor → Except EvalPanic (List NdArray)
  | [] => .ok []
  | t :: rest =>
    match (match vars t with
           | some var => Except.ok var
           | none =>
             match seek_array_owner memo t with
             | .error e => .error e
             | .ok owner =>
               match memo owner with
               | none => .error .unwrapNone
               | some (.error _) => .error .unwrapErr
               | some (.ok arr) => Except.ok arr) with
    | .error e => .error e
    | .ok a =>
      match ref_results vars memo rest with
      | .error e => .error e
      | .ok tl => .ok (a :: tl)

/-- `eval_tensors_ref` from `src/eval.rs`: run the graph walk, then read the
results out by reference, removing nothing. -/
def eval_tensors_ref (ops : Ops) (tensors : List Tensor) (vars : VariableMap)
    (memo : OutputMap) :
    Except EvalPanic (List NdArray × VariableMap × OutputMap) :=
  match perform_eval_list ops tensors vars memo with
  | .error e => .error e
  | .ok (vars1, memo1) =>
    match ref_results vars1 memo1 tensors with
    | .error e => .error e
    | .ok results => .ok (results, vars1, memo1)

/-- `run` from `src/eval.rs`: evaluate via `eval_tensors_ref`, keeping the
context's maps (the caller inspects them afterwards). -/
def run (ops : Ops) (xs : List Tensor) (ctx : Context) :
    Except EvalPanic Context :=
  match eval_tensors_ref ops xs ctx.vars ctx.outputs with
  | .error e => .error e
  | .ok (_, vars, memo) => .ok ⟨vars, memo⟩

/-! ### Chain-resolution lemmas (`seek_array` / `seek_array_owner`) -/

theorem seek_array_eq_none {memo : OutputMap} {x : Tensor} (hx : memo x = none) :
    seek_array memo x = .error .unwrapNone := by
  rw [seek_array.eq_def, hx]

theorem seek_array_eq_value {memo : OutputMap} {x : Tensor} {arr : NdArray}
    (hx : memo x = some (.ok arr)) : seek_array memo x = .ok arr := by
  rw [seek_array.eq_def, hx]

theorem seek_array_eq_bad {memo : OutputMap} {x : Tensor} {msg : String}
    (hx : memo x = some (.error (.BadInput msg))) :
    seek_array memo x = .error (.badInput x msg) := by
  rw [seek_array.eq_def, hx]

theorem seek_array_eq_delegate {memo : OutputMap} {x x' : Tensor} {i : Nat}
    (hx : memo x = some (.error (.Delegate i)))
    (hget : x.inputs.get? i = some x') :
    seek_array memo x = seek_array memo x' := by
  rw [seek_array.eq_def]
  split
  all_goals rename_i heq
  all_goals rw [hx] at heq
  all_goals cases heq
  split
  · rename_i y hy
    rw [hget] at hy
    cases hy
    rfl
  · rename_i hy
    rw [hget] at hy
    cases hy

theorem seek_array_eq_delegate_oob {memo : OutputMap} {x : Tensor} {i : Nat}
    (hx : memo x = some (.error (.Delegate i)))
    (hget : x.inputs.get? i = none) :
    seek_array memo x = .error .indexOutOfBounds := by
  rw [seek_array.eq_def]
  split
  all_goals rename_i heq
  all_goals rw [hx] at heq
  all_goals cases heq
  split
  · rename_i y hy
    rw [hget] at hy
    cases hy
  · rfl

theorem seek_array_owner_eq_none {memo : OutputMap} {x : Tensor}
    (hx : memo x = none) : seek_array_owner memo x = .ok x := by
  rw [seek_array_owner.eq_def, hx]

theorem seek_array_owner_eq_value {memo : OutputMap} {x : Tensor} {arr : NdArray}
    (hx : memo x = some (.ok arr)) : seek_array_owner memo x = .ok x := by
  rw [seek_array_owner.eq_def, hx]

theorem seek_array_owner_eq_bad {memo : OutputMap} {x : Tensor} {msg : String}
    (hx : memo x = some (.error (.BadInput msg))) :
    seek_array_owner memo x = .error (.badInput x msg) := by
  rw [seek_array_owner.eq_def, hx]

theorem seek_array_owner_eq_delegate {memo : OutputMap} {x x' : Tensor} {i : Nat}
    (hx : memo x = some (.error (.Delegate i)))
    (hget : x.inputs.get? i = some x') :
    seek_array_owner memo x = seek_array_owner memo x' := by
  rw [seek_array_owner.eq_def]
  split
  all_goals rename_i heq
  all_goals rw [hx] at heq
  all_goals cases heq
  split
  · rename_i y hy
    rw [hget] at hy
    cases hy
    rfl
  · rename_i hy
    rw [hget] at hy
    cases hy

theorem seek_array_owner_eq_delegate_oob {memo : OutputMap} {x : Tensor} {i : Nat}
    (hx : memo x = some (.error (.Delegate i)))
    (hget : x.inputs.get? i = none) :
    seek_array_owner memo x = .error .indexOutOfBounds := by
  rw [seek_array_owner.eq_def]
  split
  all_goals rename_i heq
  all_goals rw [hx] at heq
  all_goals cases heq
  split
  · rename_i y hy
    rw [hget] at hy
    cases hy
  · rfl

/-- Delegate-chain reachability: `Delegates memo x y` holds when the chain of
`Delegate { to: i }` markers starting at `x` (each step moving to
`inputs[i]`) passes through `y`. -/
inductive Delegates (memo : OutputMap) : Tensor → Tensor → Prop where
  | refl (x : Tensor) : Delegates memo x x
  | step (x x' y : Tensor) (i : Nat)
      (hx : memo x = some (.error (.Delegate i)))
      (hget : x.inputs.get? i = some x')
      (htail : Delegates memo x' y) : Delegates memo x y

theorem seek_array_owner_spec (memo : OutputMap) (x : Tensor) :
    ∀ own, seek_array_owner memo x = .ok own →
      memo own = none ∨ ∃ arr, memo own = some (.ok arr) := by
  induction x using seek_array_owner.induct memo with
  | case1 x hx =>
    intro own h
    rw [seek_array_owner_eq_none hx] at h
    cases h
    exact Or.inl hx
  | case2 x arr hx =>
    intro own h
    rw [seek_array_owner_eq_value hx] at h
    cases h
    exact Or.inr ⟨arr, hx⟩
  | case3 x msg hx =>
    intro own h
    rw [seek_array_owner_eq_bad hx] at h
    cases h
  | case4 x i hx x' hget ih =>
    intro own h
    rw [seek_array_owner_eq_delegate hx hget] at h
    exact ih own h
  | case5 x i hx hget =>
    intro own h
    rw [seek_array_owner_eq_delegate_oob hx hget] at h
    cases h

theorem seek_array_ok_owner (memo : OutputMap) (x : Tensor) :
    ∀ arr, seek_array memo x = .ok arr →
      ∃ own, seek_array_owner memo x = .ok own ∧ memo own = some (.ok arr) := by
  induction x using seek_array.induct memo with
  | case1 x hx =>
    intro arr h
    rw [seek_array_eq_none hx] at h
    cases h
  | case2 x a hx =>
    intro arr h
    rw [seek_array_eq_value hx] at h
    cases h
    exact ⟨x, seek_array_owner_eq_value hx, hx⟩
  | case3 x msg hx =>
    intro arr h
    rw [seek_array_eq_bad hx] at h
    cases h
  | case4 x i hx x' hget ih =>
    intro arr h
    rw [seek_array_eq_delegate hx hget] at h
    obtain ⟨own, h1, h2⟩ := ih arr h
    exact ⟨own, (seek_array_owner_eq_delegate hx hget).trans h1, h2⟩
  | case5 x i hx hget =>
    intro arr h
    rw [seek_array_eq_delegate_oob hx hget] at h
    cases h

theorem seek_array_memo_isSome (memo : OutputMap) (x : Tensor) (arr : NdArray)
    (h : seek_array memo x = .ok arr) : (memo x).isSome := by
  match hx : memo x with
  | none => rw [seek_array_eq_none hx] at h; cases h
  | some r => simp

theorem seek_array_error_classes (memo : OutputMap) (x : Tensor) :
    ∀ e, seek_array memo x = .error e →
      e = .unwrapNone ∨ e = .indexOutOfBounds ∨ ∃ y msg, e = .badInput y msg := by
  induction x using seek_array.induct memo with
  | case1 x hx =>
    intro e h
    rw [seek_array_eq_none hx] at h
    cases h
    exact Or.inl rfl
  | case2 x a hx =>
    intro e h
    rw [seek_array_eq_value hx] at h
    cases h
  | case3 x msg hx =>
    intro e h
    rw [seek_array_eq_bad hx] at h
    cases h
    exact Or.inr (Or.inr ⟨x, msg, rfl⟩)
  | case4 x i hx x' hget ih =>
    intro e h
    rw [seek_array_eq_delegate hx hget] at h
    exact ih e h
  | case5 x i hx hget =>
    intro e h
    rw [seek_array_eq_delegate_oob hx hget] at h
    cases h
    exact Or.inr (Or.inl rfl)

theorem seek_array_owner_error_classes (memo : OutputMap) (x : Tensor) :
    ∀ e, seek_array_owner memo x = .error e →
      e = .indexOutOfBounds ∨ ∃ y msg, e = .badInput y msg := by
  induction x using seek_array_owner.induct memo with
  | case1 x hx =>
    intro e h
    rw [seek_array_owner_eq_none hx] at h
    cases h
  | case2 x a hx =>
    intro e h
    rw [seek_array_owner_eq_value hx] at h
    cases h
  | case3 x msg hx =>
    intro e h
    rw [seek_array_owner_eq_bad hx] at h
    cases h
    exact Or.inr ⟨x, msg, rfl⟩
  | case4 x i hx x' hget ih =>
    intro e h
    rw [seek_array_owner_eq_delegate hx hget] at h
    exact ih e h
  | case5 x i hx hget =>
    intro e h
    rw [seek_array_owner_eq_delegate_oob hx hget] at h
    cases h
    exact Or.inl rfl

theorem seek_array_badInput (memo : OutputMap) {x f : Tensor} {msg : String}
    (hreach : Delegates memo x f)
    (hf : memo f = some (.error (.BadInput msg))) :
    seek_array memo x = .error (.badInput f msg) := by
  induction hreach with
  | refl x => exact seek_array_eq_bad hf
  | step x x' y i hx hget htail ih =>
    rw [seek_array_eq_delegate hx hget]
    exact ih hf

theorem seek_array_owner_badInput (memo : OutputMap) {x f : Tensor} {msg : String}
    (hreach : Delegates memo x f)
    (hf : memo f = some (.error (.BadInput msg))) :
    seek_array_owner memo x = .error (.badInput f msg) := by
  induction hreach with
  | refl x => exact seek_array_owner_eq_bad hf
  | step x x' y i hx hget htail ih =>
    rw [seek_array_owner_eq_delegate hx hget]
    exact ih hf

theorem seek_array_owner_total (memo : OutputMap)
    (hnb : ∀ u msg, memo u ≠ some (.error (.BadInput msg)))
    (hib : ∀ u i, memo u = some (.error (.Delegate i)) → i < u.inputs.length) :
    ∀ x, ∃ own, seek_array_owner memo x = .ok own := by
  intro x
  induction x using seek_array_owner.induct memo with
  | case1 x hx => exact ⟨x, seek_array_owner_eq_none hx⟩
  | case2 x arr hx => exact ⟨x, seek_array_owner_eq_value hx⟩
  | case3 x msg hx => exact absurd hx (hnb x msg)
  | case4 x i hx x' hget ih =>
    obtain ⟨own, h⟩ := ih
    exact ⟨own, (seek_array_owner_eq_delegate hx hget).trans h⟩
  | case5 x i hx hget =>
    have hlt := hib x i hx
    rw [List.get?_eq_none] at hget
    omega

/-! ### Map lemmas -/

theorem mapUpd_self {β : Type} (m : Tensor → Option β) (k : Tensor) (v : β) :
    mapUpd m k v k = some v := by
  simp [mapUpd]

theorem mapUpd_ne {β : Type} (m : Tensor → Option β) (k : Tensor) (v : β)
    {q : Tensor} (h : q ≠ k) : mapUpd m k v q = m q := by
  simp [mapUpd, h]

theorem mapDel_self {β : Type} (m : Tensor → Option β) (k : Tensor) :
    mapDel m k k = none := by
  simp [mapDel]

theorem mapDel_ne {β : Type} (m : Tensor → Option β) (k : Tensor)
    {q : Tensor} (h : q ≠ k) : mapDel m k q = m q := by
  simp [mapDel, h]

theorem mapEmpty_eq {β : Type} (q : Tensor) : mapEmpty (β := β) q = none := rfl

/-! ### Graph-walker lemmas (`perform_eval`) -/

theorem perform_eval_eq_resolved {ops : Ops} {target : Tensor}
    {vars : VariableMap} {memo : OutputMap}
    (h : (vars target).isSome ∨ (memo target).isSome) :
    perform_eval ops target vars memo = .ok (vars, memo) := by
  rw [perform_eval.eq_def, if_pos]
  rcases h with h | h <;> simp [h]

theorem perform_eval_eq_step {ops : Ops} {target : Tensor}
    {vars : VariableMap} {memo : OutputMap}
    (h1 : vars target = none) (h2 : memo target = none) :
    perform_eval ops target vars memo =
      match perform_eval_list ops target.inputs vars memo with
      | .error e => .error e
      | .ok (v1, m1) => finish_eval ops target v1 m1 := by
  rw [perform_eval.eq_def, if_neg]
  simp [h1, h2]

theorem perform_eval_list_nil {ops : Ops} {vars : VariableMap} {memo : OutputMap} :
    perform_eval_list ops [] vars memo = .ok (vars, memo) := by
  rw [perform_eval_list.eq_def]

theorem perform_eval_list_cons {ops : Ops} {x : Tensor} {rest : List Tensor}
    {vars : VariableMap} {memo : OutputMap} :
    perform_eval_list ops (x :: rest) vars memo =
      match perform_eval ops x vars memo with
      | .error e => .error e
      | .ok (v1, m1) => perform_eval_list ops rest v1 m1 := by
  rw [perform_eval_list.eq_def]

theorem migrate_inplace_ok {target x : Tensor} {vars : VariableMap}
    {memo : OutputMap} {v' : VariableMap} {m' : OutputMap}
    (h : migrate_inplace target x vars memo = .ok (v', m')) :
    (∃ y, memo x = some y ∧ v' = vars ∧ m' = mapUpd (mapDel memo x) target y) ∨
    (memo x = none ∧
      ∃ y, vars x = some y ∧ v' = mapUpd (mapDel vars x) target y ∧ m' = memo) := by
  unfold migrate_inplace at h
  split at h
  · rename_i y hy
    cases h
    exact Or.inl ⟨y, hy, rfl, rfl⟩
  · rename_i hy
    split at h
    · rename_i y hvy
      cases h
      exact Or.inr ⟨hy, y, hvy, rfl, rfl⟩
    · cases h

theorem write_mutated_ok {vars : VariableMap} {memo : OutputMap} {x : Tensor}
    {newArr : NdArray} {v' : VariableMap} {m' : OutputMap}
    (h : write_mutated vars memo x newArr = .ok (v', m')) :
    ((vars x).isSome ∧ v' = mapUpd vars x newArr ∧ m' = memo) ∨
    (vars x = none ∧ ∃ own, seek_array_owner memo x = .ok own ∧
      v' = vars ∧ m' = mapUpd memo own (.ok newArr)) := by
  unfold write_mutated at h
  split at h
  · rename_i y hy
    cases h
    exact Or.inl ⟨by simp [hy], rfl, rfl⟩
  · rename_i hy
    split at h
    · cases h
    · rename_i own hown
      cases h
      exact Or.inr ⟨hy, own, hown, rfl, rfl⟩

theorem make_xs_nil {vars : VariableMap} {memo : OutputMap} :
    make_xs vars memo [] = .ok [] := rfl

theorem make_xs_head {vars : VariableMap} {memo : OutputMap} {x : Tensor}
    {rest : List Tensor} {xs : List NdArray}
    (h : make_xs vars memo (x :: rest) = .ok xs) :
    (vars x).isSome ∨ ∃ arr, seek_array memo x = .ok arr := by
  unfold make_xs at h
  split at h
  · cases h
  · rename_i a heq
    split at heq
    · rename_i b hb
      exact Or.inl (by simp [hb])
    · exact Or.inr ⟨a, heq⟩

theorem finish_eval_target_resolvable {ops : Ops} {target : Tensor}
    {vars : VariableMap} {memo : OutputMap} {v' : VariableMap} {m' : OutputMap}
    (h : finish_eval ops target vars memo = .ok (v', m')) :
    (v' target).isSome ∨ (m' target).isSome := by
  unfold finish_eval at h
  split at h
  · cases h
  · split at h
    · split at h
      · cases h
      · split at h
        · cases h
        · split at h
          · cases h
          · rcases migrate_inplace_ok h with ⟨y, _, hv, hm⟩ | ⟨_, y, _, hv, hm⟩
            · subst hv hm
              exact Or.inr (by simp [mapUpd_self])
            · subst hv hm
              exact Or.inl (by simp [mapUpd_self])
    · cases h
      exact Or.inr (by simp [mapUpd_self])

theorem perform_eval_target_resolvable {ops : Ops} {target : Tensor}
    {vars : VariableMap} {memo : OutputMap} {v' : VariableMap} {m' : OutputMap}
    (h : perform_eval ops target vars memo = .ok (v', m')) :
    (v' target).isSome ∨ (m' target).isSome := by
  rw [perform_eval.eq_def] at h
  split at h
  · rename_i hres
    cases h
    simpa using hres
  · split at h
    · cases h
    · exact finish_eval_target_resolvable h

theorem perform_eval_idempotent {ops : Ops} {target : Tensor}
    {vars : VariableMap} {memo : OutputMap} {v' : VariableMap} {m' : OutputMap}
    (h : perform_eval ops target vars memo = .ok (v', m')) :
    perform_eval ops target v' m' = .ok (v', m') :=
  perform_eval_eq_resolved (perform_eval_target_resolvable h)

theorem perform_eval_list_noop {ops : Ops} {ts : List Tensor}
    {vars : VariableMap} {memo : OutputMap}
    (h : ∀ t ∈ ts, (vars t).isSome ∨ (memo t).isSome) :
    perform_eval_list ops ts vars memo = .ok (vars, memo) := by
  induction ts with
  | nil => exact perform_eval_list_nil
  | cons x rest ih =>
    rw [perform_eval_list_cons, perform_eval_eq_resolved (h x (by simp))]
    exact ih (fun t ht => h t (List.mem_cons_of_mem x ht))

theorem Tensor.sizeOf_lt_of_mem_inputs {x t : Tensor} (h : x ∈ t.inputs) :
    sizeOf x < sizeOf t :=
  lt_trans (List.sizeOf_lt_of_mem h) (Tensor.sizeOf_inputs_lt t)

theorem seek_array_owner_sizeOf_le (memo : OutputMap) (x : Tensor) :
    ∀ own, seek_array_owner memo x = .ok own → sizeOf own ≤ sizeOf x := by
  induction x using seek_array_owner.induct memo with
  | case1 x hx =>
    intro own h
    rw [seek_array_owner_eq_none hx] at h
    cases h
    exact le_refl _
  | case2 x arr hx =>
    intro own h
    rw [seek_array_owner_eq_value hx] at h
    cases h
    exact le_refl _
  | case3 x msg hx =>
    intro own h
    rw [seek_array_owner_eq_bad hx] at h
    cases h
  | case4 x i hx x' hget ih =>
    intro own h
    rw [seek_array_owner_eq_delegate hx hget] at h
    have hlt : sizeOf x' < sizeOf x :=
      Tensor.sizeOf_lt_of_mem_inputs (Tensor.mem_of_get?_eq_some hget)
    exact le_trans (ih own h) (le_of_lt hlt)
  | case5 x i hx hget =>
    intro own h
    rw [seek_array_owner_eq_delegate_oob hx hget] at h
    cases h

theorem make_xs_error_classes {vars : VariableMap} {memo : OutputMap} :
    ∀ l e, make_xs vars memo l = .error e →
      e = .unwrapNone ∨ e = .indexOutOfBounds ∨ ∃ y msg, e = .badInput y msg := by
  intro l
  induction l with
  | nil =>
    intro e h
    rw [make_xs_nil] at h
    cases h
  | cons x rest ih =>
    intro e h
    unfold make_xs at h
    split at h
    · rename_i heq
      cases h
      split at heq
      · cases heq
      · exact seek_array_error_classes memo x _ heq
    · rename_i a heq
      split at h
      · rename_i e2 h2
        cases h
        exact ih _ h2
      · cases h

theorem write_mutated_error_classes {vars : VariableMap} {memo : OutputMap}
    {x : Tensor} {newArr : NdArray} {e : EvalPanic}
    (h : write_mutated vars memo x newArr = .error e) :
    e = .indexOutOfBounds ∨ ∃ y msg, e = .badInput y msg := by
  unfold write_mutated at h
  split at h
  · cases h
  · split at h
    · rename_i h2
      cases h
      exact seek_array_owner_error_classes memo x _ h2
    · cases h

theorem migrate_inplace_error {target x : Tensor} {vars : VariableMap}
    {memo : OutputMap} {e : EvalPanic}
    (h : migrate_inplace target x vars memo = .error e) :
    memo x = none ∧ vars x = none ∧ e = .unreachableInplace := by
  unfold migrate_inplace at h
  split at h
  · cases h
  · rename_i h1
    split at h
    · cases h
    · rename_i h2
      cases h
      exact ⟨h1, h2, rfl⟩

theorem List.get?_zero_eq_some {l : List Tensor} {x : Tensor}
    (h : l.get? 0 = some x) : ∃ tl, l = x :: tl := by
  cases l with
  | nil => cases h
  | cons a tl =>
    simp only [List.get?] at h
    cases h
    exact ⟨tl, rfl⟩

theorem finish_eval_no_unreachable {ops : Ops} {target : Tensor}
    {vars : VariableMap} {memo : OutputMap} {e : EvalPanic}
    (h : finish_eval ops target vars memo = .error e) :
    e ≠ .unreachableInplace := by
  unfold finish_eval at h
  split at h
  · rename_i hmk
    cases h
    rcases make_xs_error_classes _ _ hmk with h1 | h1 | ⟨y, msg, h1⟩ <;>
      simp [h1]
  · rename_i xs hmk
    split at h
    · split at h
      · rename_i msg hci
        cases h
        simp
      · split at h
        · cases h
          simp
        · rename_i x hget
          split at h
          · rename_i e2 hwm
            cases h
            rcases write_mutated_error_classes hwm with h1 | ⟨y, msg, h1⟩ <;>
              simp [h1]
          · rename_i vars2 memo2 hwm
            exfalso
            obtain ⟨hm2, hv2, _⟩ := migrate_inplace_error h
            obtain ⟨tl, htl⟩ := List.get?_zero_eq_some hget
            rw [htl] at hmk
            rcases make_xs_head hmk with hvx | ⟨arr, hseek⟩
            · rcases write_mutated_ok hwm with ⟨_, hv, hm⟩ | ⟨hnone, _⟩
              · subst hv hm
                rw [mapUpd_self] at hv2
                cases hv2
              · rw [hnone] at hvx
                cases hvx
            · obtain ⟨own, hown, hownval⟩ := seek_array_ok_owner memo x arr hseek
              rcases write_mutated_ok hwm with ⟨hvx, hv, hm⟩ | ⟨hnone, own2, hown2, hv, hm⟩
              · subst hv hm
                have := seek_array_memo_isSome _ x arr hseek
                rw [hm2] at this
                cases this
              · rw [hown] at hown2
                cases hown2
                subst hv hm
                by_cases hxo : x = own
                · subst hxo
                  rw [mapUpd_self] at hm2
                  cases hm2
                · rw [mapUpd_ne _ _ _ hxo] at hm2
                  have := seek_array_memo_isSome _ x arr hseek
                  rw [hm2] at this
                  cases this
    · cases h

theorem Tensor.sizeOf_pos (t : Tensor) : 0 < sizeOf t := by
  cases t with
  | mk o i =>
    simp only [Tensor.mk.sizeOf_spec]
    omega

theorem perform_eval_list_no_unreachable_of {ops : Ops} {ts : List Tensor}
    (hP : ∀ x ∈ ts, ∀ (v : VariableMap) (m : OutputMap) (e : EvalPanic),
      perform_eval ops x v m = .error e → e ≠ .unreachableInplace) :
    ∀ (v : VariableMap) (m : OutputMap) (e : EvalPanic),
      perform_eval_list ops ts v m = .error e → e ≠ .unreachableInplace := by
  induction ts with
  | nil =>
    intro v m e h
    rw [perform_eval_list_nil] at h
    cases h
  | cons x rest ih =>
    intro v m e h
    rw [perform_eval_list_cons] at h
    split at h
    · rename_i e2 hx
      cases h
      exact hP x (by simp) v m _ hx
    · rename_i v1 m1 hx
      exact ih (fun y hy => hP y (List.mem_cons_of_mem x hy)) v1 m1 e h

theorem perform_eval_no_unreachable_n {ops : Ops} :
    ∀ (n : Nat) (target : Tensor), sizeOf target ≤ n →
      ∀ (vars : VariableMap) (memo : OutputMap) (e : EvalPanic),
        perform_eval ops target vars memo = .error e →
          e ≠ .unreachableInplace := by
  intro n
  induction n with
  | zero =>
    intro t ht
    have := Tensor.sizeOf_pos t
    omega
  | succ n ihn =>
    intro t ht v m e h
    rw [perform_eval.eq_def] at h
    split at h
    · cases h
    · split at h
      · rename_i e2 hlist
        cases h
        exact perform_eval_list_no_unreachable_of
          (fun x hx => ihn x
            (by have := Tensor.sizeOf_lt_of_mem_inputs hx; omega))
          v m _ hlist
      · exact finish_eval_no_unreachable h

theorem perform_eval_no_unreachable {ops : Ops} (target : Tensor)
    (vars : VariableMap) (memo : OutputMap) (e : EvalPanic)
    (h : perform_eval ops target vars memo = .error e) :
    e ≠ .unreachableInplace :=
  perform_eval_no_unreachable_n (sizeOf target) target (le_refl _) vars memo e h

theorem perform_eval_list_no_unreachable {ops : Ops} (ts : List Tensor)
    (vars : VariableMap) (memo : OutputMap) (e : EvalPanic)
    (h : perform_eval_list ops ts vars memo = .error e) :
    e ≠ .unreachableInplace :=
  perform_eval_list_no_unreachable_of
    (fun x _ => perform_eval_no_unreachable x) vars memo e h

theorem ne_of_sizeOf_lt {a b : Tensor} (h : sizeOf a < sizeOf b) : b ≠ a := by
  intro he
  subst he
  omega

theorem finish_eval_untouched {ops : Ops} {target : Tensor}
    {vars : VariableMap} {memo : OutputMap} {v' : VariableMap} {m' : OutputMap}
    (h : finish_eval ops target vars memo = .ok (v', m')) :
    ∀ u, sizeOf target < sizeOf u → v' u = vars u ∧ m' u = memo u := by
  intro u hu
  have hut : u ≠ target := ne_of_sizeOf_lt hu
  unfold finish_eval at h
  split at h
  · cases h
  · rename_i xs hmk
    split at h
    · split at h
      · cases h
      · split at h
        · cases h
        · rename_i x hget
          have hxm : x ∈ target.inputs := Tensor.mem_of_get?_eq_some hget
          have hxs : sizeOf x < sizeOf target := Tensor.sizeOf_lt_of_mem_inputs hxm
          have hux : u ≠ x := ne_of_sizeOf_lt (by omega)
          split at h
          · cases h
          · rename_i v2 m2 hwm
            have h2 : v2 u = vars u ∧ m2 u = memo u := by
              rcases write_mutated_ok hwm with ⟨_, hv, hm⟩ |
                  ⟨_, own, hown, hv, hm⟩
              · subst hv hm
                exact ⟨mapUpd_ne _ _ _ hux, rfl⟩
              · subst hv hm
                have hos : sizeOf own ≤ sizeOf x :=
                  seek_array_owner_sizeOf_le _ x own hown
                have huo : u ≠ own := ne_of_sizeOf_lt (by omega)
                exact ⟨rfl, mapUpd_ne _ _ _ huo⟩
            rcases migrate_inplace_ok h with ⟨y, hy, hv, hm⟩ |
                ⟨hmx, y, hy, hv, hm⟩
            · subst hv hm
              refine ⟨h2.1, ?_⟩
              rw [mapUpd_ne _ _ _ hut, mapDel_ne _ _ hux]
              exact h2.2
            · subst hv hm
              refine ⟨?_, h2.2⟩
              rw [mapUpd_ne _ _ _ hut, mapDel_ne _ _ hux]
              exact h2.1
    · cases h
      exact ⟨rfl, mapUpd_ne _ _ _ hut⟩

theorem perform_eval_list_untouched_of {ops : Ops} {ts : List Tensor}
    (hP : ∀ x ∈ ts, ∀ (v : VariableMap) (m : OutputMap) v' m',
      perform_eval ops x v m = .ok (v', m') →
        ∀ u, sizeOf x < sizeOf u → v' u = v u ∧ m' u = m u) :
    ∀ (v : VariableMap) (m : OutputMap) v' m',
      perform_eval_list ops ts v m = .ok (v', m') →
        ∀ u, (∀ x ∈ ts, sizeOf x < sizeOf u) → v' u = v u ∧ m' u = m u := by
  induction ts with
  | nil =>
    intro v m v' m' h u hu
    rw [perform_eval_list_nil] at h
    cases h
    exact ⟨rfl, rfl⟩
  | cons x rest ih =>
    intro v m v' m' h u hu
    rw [perform_eval_list_cons] at h
    split at h
    · cases h
    · rename_i v1 m1 hx
      have h1 := hP x (by simp) v m v1 m1 hx u (hu x (by simp))
      have h2 := ih (fun y hy => hP y (List.mem_cons_of_mem x hy)) v1 m1 v' m' h
        u (fun y hy => hu y (List.mem_cons_of_mem x hy))
      exact ⟨h2.1.trans h1.1, h2.2.trans h1.2⟩

theorem perform_eval_untouched_n {ops : Ops} :
    ∀ (n : Nat) (target : Tensor), sizeOf target ≤ n →
      ∀ (vars : VariableMap) (memo : OutputMap) v' m',
        perform_eval ops target vars memo = .ok (v', m') →
          ∀ u, sizeOf target < sizeOf u → v' u = vars u ∧ m' u = memo u := by
  intro n
  induction n with
  | zero =>
    intro t ht
    have := Tensor.sizeOf_pos t
    omega
  | succ n ihn =>
    intro t ht v m v' m' h u hu
    rw [perform_eval.eq_def] at h
    split at h
    · cases h
      exact ⟨rfl, rfl⟩
    · split at h
      · cases h
      · rename_i v1 m1 hlist
        have hstep := perform_eval_list_untouched_of
          (fun x hx => ihn x
            (by have := Tensor.sizeOf_lt_of_mem_inputs hx; omega))
          v m v1 m1 hlist u
          (fun x hx => by
            have := Tensor.sizeOf_lt_of_mem_inputs hx; omega)
        have hfin := finish_eval_untouched h u hu
        exact ⟨hfin.1.trans hstep.1, hfin.2.trans hstep.2⟩

theorem perform_eval_untouched {ops : Ops} {target : Tensor}
    {vars : VariableMap} {memo : OutputMap} {v' : VariableMap} {m' : OutputMap}
    (h : perform_eval ops target vars memo = .ok (v', m')) :
    ∀ u, sizeOf target < sizeOf u → v' u = vars u ∧ m' u = memo u :=
  perform_eval_untouched_n (sizeOf target) target (le_refl _) vars memo v' m' h

theorem perform_eval_list_untouched {ops : Ops} {ts : List Tensor}
    {vars : VariableMap} {memo : OutputMap} {v' : VariableMap} {m' : OutputMap}
    (h : perform_eval_list ops ts vars memo = .ok (v', m')) :
    ∀ u, (∀ x ∈ ts, sizeOf x < sizeOf u) → v' u = vars u ∧ m' u = memo u :=
  perform_eval_list_untouched_of
    (fun x _ v m v2 m2 hx => perform_eval_untouched hx) vars memo v' m' h

/-! ### The Variable-Map / cache disjointness invariant -/

/-- The invariant of §3 of the design: no node identity is simultaneously a
key of the Variable Map and a key of the Output Cache. -/
def DisjointMaps (vars : VariableMap) (memo : OutputMap) : Prop :=
  ∀ u, (vars u).isSome → memo u = none

theorem finish_eval_disjoint {ops : Ops} {target : Tensor}
    {vars : VariableMap} {memo : OutputMap} {v' : VariableMap} {m' : OutputMap}
    (hd : DisjointMaps vars memo)
    (h1 : vars target = none) (h2 : memo target = none)
    (h : finish_eval ops target vars memo = .ok (v', m')) :
    DisjointMaps v' m' := by
  unfold finish_eval at h
  split at h
  · cases h
  · rename_i xs hmk
    split at h
    · split at h
      · cases h
      · split at h
        · cases h
        · rename_i x hget
          have hxm : x ∈ target.inputs := Tensor.mem_of_get?_eq_some hget
          have hxs : sizeOf x < sizeOf target := Tensor.sizeOf_lt_of_mem_inputs hxm
          have htx : target ≠ x := ne_of_sizeOf_lt hxs
          obtain ⟨tl, htl⟩ := List.get?_zero_eq_some hget
          split at h
          · cases h
          · rename_i v2 m2 hwm
            have hkey : DisjointMaps v2 m2 ∧ v2 target = none ∧ m2 target = none := by
              rcases write_mutated_ok hwm with ⟨hvx, hv, hm⟩ |
                  ⟨hvx, own, hown, hv, hm⟩
              · subst hv hm
                refine ⟨?_, ?_, h2⟩
                · intro u hu
                  by_cases hux : u = x
                  · subst hux
                    exact hd u hvx
                  · rw [mapUpd_ne _ _ _ hux] at hu
                    exact hd u hu
                · rw [mapUpd_ne _ _ _ htx]
                  exact h1
              · subst hv hm
                rw [htl] at hmk
                rcases make_xs_head hmk with hvx2 | ⟨arr, hseek⟩
                · rw [hvx] at hvx2
                  cases hvx2
                · obtain ⟨own2, hown2, hownval⟩ :=
                    seek_array_ok_owner _ x arr hseek
                  rw [hown] at hown2
                  cases hown2
                  have hos : sizeOf own ≤ sizeOf x :=
                    seek_array_owner_sizeOf_le _ x own hown
                  have hto : target ≠ own := ne_of_sizeOf_lt (by omega)
                  refine ⟨?_, h1, ?_⟩
                  · intro u hu
                    by_cases huo : u = own
                    · subst huo
                      have := hd u hu
                      rw [this] at hownval
                      cases hownval
                    · rw [mapUpd_ne _ _ _ huo]
                      exact hd u hu
                  · rw [mapUpd_ne _ _ _ hto]
                    exact h2
            obtain ⟨hd2, hv2t, hm2t⟩ := hkey
            rcases migrate_inplace_ok h with ⟨y, hy, hv, hm⟩ |
                ⟨hmx, y, hy, hv, hm⟩
            · subst hv hm
              intro u hu
              by_cases hut : u = target
              · subst hut
                rw [hv2t] at hu
                cases hu
              · rw [mapUpd_ne _ _ _ hut]
                by_cases hux : u = x
                · subst hux
                  exact mapDel_self _ _
                · rw [mapDel_ne _ _ hux]
                  exact hd2 u hu
            · subst hv hm
              intro u hu
              by_cases hut : u = target
              · subst hut
                exact hm2t
              · rw [mapUpd_ne _ _ _ hut] at hu
                by_cases hux : u = x
                · subst hux
                  rw [mapDel_self] at hu
                  cases hu
                · rw [mapDel_ne _ _ hux] at hu
                  exact hd2 u hu
    · cases h
      intro u hu
      by_cases hut : u = target
      · subst hut
        rw [h1] at hu
        cases hu
      · rw [mapUpd_ne _ _ _ hut]
        exact hd u hu

theorem perform_eval_list_disjoint_of {ops : Ops} {ts : List Tensor}
    (hP : ∀ x ∈ ts, ∀ (v : VariableMap) (m : OutputMap) v' m',
      perform_eval ops x v m = .ok (v', m') → DisjointMaps v m →
        DisjointMaps v' m') :
    ∀ (v : VariableMap) (m : OutputMap) v' m',
      perform_eval_list ops ts v m = .ok (v', m') → DisjointMaps v m →
        DisjointMaps v' m' := by
  induction ts with
  | nil =>
    intro v m v' m' h hd
    rw [perform_eval_list_nil] at h
    cases h
    exact hd
  | cons x rest ih =>
    intro v m v' m' h hd
    rw [perform_eval_list_cons] at h
    split at h
    · cases h
    · rename_i v1 m1 hx
      exact ih (fun y hy => hP y (List.mem_cons_of_mem x hy)) v1 m1 v' m' h
        (hP x (by simp) v m v1 m1 hx hd)

theorem perform_eval_disjoint_n {ops : Ops} :
    ∀ (n : Nat) (target : Tensor), sizeOf target ≤ n →
      ∀ (vars : VariableMap) (memo : OutputMap) v' m',
        perform_eval ops target vars memo = .ok (v', m') →
          DisjointMaps vars memo → DisjointMaps v' m' := by
  intro n
  induction n with
  | zero =>
    intro t ht
    have := Tensor.sizeOf_pos t
    omega
  | succ n ihn =>
    intro t ht v m v' m' h hd
    rw [perform_eval.eq_def] at h
    split at h
    · cases h
      exact hd
    · rename_i hres
      have hres2 : v t = none ∧ m t = none := by
        rcases hv : v t with _ | a <;> rcases hm : m t with _ | b <;>
          simp [hv, hm] at hres ⊢
      split at h
      · cases h
      · rename_i v1 m1 hlist
        have hd1 : DisjointMaps v1 m1 :=
          perform_eval_list_disjoint_of
            (fun x hx => ihn x
              (by have := Tensor.sizeOf_lt_of_mem_inputs hx; omega))
            v m v1 m1 hlist hd
        have hunt := perform_eval_list_untouched hlist t
          (fun x hx => Tensor.sizeOf_lt_of_mem_inputs hx)
        exact finish_eval_disjoint hd1 (hunt.1.trans hres2.1)
          (hunt.2.trans hres2.2) h

theorem perform_eval_disjoint {ops : Ops} {target : Tensor}
    {vars : VariableMap} {memo : OutputMap} {v' : VariableMap} {m' : OutputMap}
    (h : perform_eval ops target vars memo = .ok (v', m'))
    (hd : DisjointMaps vars memo) : DisjointMaps v' m' :=
  perform_eval_disjoint_n (sizeOf target) target (le_refl _) vars memo v' m' h hd

theorem perform_eval_list_disjoint {ops : Ops} {ts : List Tensor}
    {vars : VariableMap} {memo : OutputMap} {v' : VariableMap} {m' : OutputMap}
    (h : perform_eval_list ops ts vars memo = .ok (v', m'))
    (hd : DisjointMaps vars memo) : DisjointMaps v' m' :=
  perform_eval_list_disjoint_of
    (fun x _ v m v2 m2 hx => perform_eval_disjoint hx) vars memo v' m' h hd

/-! ### Owner-table lemmas (`build_owners` / `emit_results`) -/

/-- Invariant of the owner table while the first loop of `eval_tensors` runs:
`done` is the list of owners resolved so far (in request order), and for each
distinct owner the table holds a fixed entry together with the number of
requests resolved to it so far. -/
def TablePre (o2a : OwnerMap) (done : List Tensor)
    (g : Tensor → NdArray × Bool) : Prop :=
  ∀ o, (o ∈ done → o2a o = some (g o, done.count o)) ∧
       (o ∉ done → o2a o = none)

theorem tablePre_occupied {o2a : OwnerMap} {done : List Tensor}
    {g : Tensor → NdArray × Bool} (hpre : TablePre o2a done g)
    {t : Tensor} {entry : NdArray × Bool} {c : Nat}
    (ht : o2a t = some (entry, c)) :
    t ∈ done ∧ entry = g t ∧ c = done.count t ∧
    TablePre (mapUpd o2a t (entry, c + 1)) (done ++ [t]) g := by
  have htd : t ∈ done := by
    by_contra hn
    rw [(hpre t).2 hn] at ht
    cases ht
  have hval := (hpre t).1 htd
  rw [ht] at hval
  have hentry : entry = g t := by
    cases hval
    rfl
  have hc : c = done.count t := by
    cases hval
    rfl
  refine ⟨htd, hentry, hc, ?_⟩
  intro o
  constructor
  · intro ho
    by_cases hot : o = t
    · subst hot
      rw [mapUpd_self, List.count_append]
      simp [hentry, hc]
    · rw [mapUpd_ne _ _ _ hot, List.count_append]
      have hod : o ∈ done := by
        rcases List.mem_append.mp ho with h | h
        · exact h
        · rw [List.mem_singleton] at h
          exact absurd h hot
      have : List.count o [t] = 0 := by
        simp [List.count_singleton', hot]
      rw [this, Nat.add_zero]
      exact (hpre o).1 hod
  · intro ho
    have hot : o ≠ t := fun he => ho (by rw [he]; exact List.mem_append_right _ (by simp))
    rw [mapUpd_ne _ _ _ hot]
    exact (hpre o).2 (fun hd => ho (List.mem_append_left _ hd))

theorem tablePre_vacant {o2a : OwnerMap} {done : List Tensor}
    {g : Tensor → NdArray × Bool} (hpre : TablePre o2a done g)
    {t : Tensor} (ht : o2a t = none) (entry : NdArray × Bool) :
    t ∉ done ∧
    TablePre (mapUpd o2a t (entry, 1)) (done ++ [t])
      (fun o => if o = t then entry else g o) := by
  have htd : t ∉ done := by
    intro hd
    rw [(hpre t).1 hd] at ht
    cases ht
  refine ⟨htd, ?_⟩
  intro o
  constructor
  · intro ho
    by_cases hot : o = t
    · subst hot
      rw [mapUpd_self, List.count_append]
      have h0 : done.count o = 0 := List.count_eq_zero.mpr htd
      simp [h0]
    · rw [mapUpd_ne _ _ _ hot, List.count_append]
      have hod : o ∈ done := by
        rcases List.mem_append.mp ho with h | h
        · exact h
        · rw [List.mem_singleton] at h
          exact absurd h hot
      have : List.count o [t] = 0 := by
        simp [List.count_singleton', hot]
      rw [this, Nat.add_zero]
      simp only [if_neg hot]
      exact (hpre o).1 hod
  · intro ho
    have hot : o ≠ t := fun he => ho (by rw [he]; exact List.mem_append_right _ (by simp))
    rw [mapUpd_ne _ _ _ hot]
    exact (hpre o).2 (fun hd => ho (List.mem_append_left _ hd))


theorem build_owners_table {vars : VariableMap} :
    ∀ (ts : List Tensor) (memo : OutputMap) (o2a : OwnerMap)
      (done : List Tensor) (g : Tensor → NdArray × Bool),
      TablePre o2a done g →
      ∀ (memo' : OutputMap) (o2a' : OwnerMap) (owners : List Tensor),
        build_owners vars ts memo o2a = .ok (memo', o2a', owners) →
        ∃ g' : Tensor → NdArray × Bool,
          (∀ o ∈ done, g' o = g o) ∧
          TablePre o2a' (done ++ owners) g' ∧
          owners.length = ts.length := by
  intro ts
  induction ts with
  | nil =>
    intro memo o2a done g hpre memo' o2a' owners h
    unfold build_owners at h
    cases h
    exact ⟨g, fun o _ => rfl, by simpa using hpre, rfl⟩
  | cons t rest ih =>
    intro memo o2a done g hpre memo' o2a' owners h
    unfold build_owners at h
    split at h
    · rename_i var hvar
      split at h
      · rename_i entry c hocc
        split at h
        · cases h
        · rename_i memo1 o2a2 owners1 hrec
          cases h
          obtain ⟨htd, hent, hc, hpre1⟩ := tablePre_occupied hpre hocc
          obtain ⟨g', hg, htab, hlen⟩ := ih _ _ (done ++ [t]) g hpre1 _ _ _ hrec
          refine ⟨g', fun o ho => hg o (List.mem_append_left _ ho), ?_, by simp [hlen]⟩
          have hre : (done ++ [t]) ++ owners1 = done ++ t :: owners1 := by simp
          rwa [hre] at htab
      · rename_i hocc
        split at h
        · cases h
        · rename_i memo1 o2a2 owners1 hrec
          cases h
          obtain ⟨htd, hpre1⟩ := tablePre_vacant hpre hocc ((var, false))
          obtain ⟨g', hg, htab, hlen⟩ := ih _ _ (done ++ [t]) _ hpre1 _ _ _ hrec
          refine ⟨g', ?_, ?_, by simp [hlen]⟩
          · intro o ho
            have hot : o ≠ t := fun he => htd (he ▸ ho)
            rw [hg o (List.mem_append_left _ ho)]
            simp [hot]
          · have hre : (done ++ [t]) ++ owners1 = done ++ t :: owners1 := by simp
            rwa [hre] at htab
    · rename_i hvar
      split at h
      · cases h
      · rename_i owner hseek
        split at h
        · rename_i entry c hocc
          split at h
          · cases h
          · rename_i memo1 o2a2 owners1 hrec
            cases h
            obtain ⟨htd, hent, hc, hpre1⟩ := tablePre_occupied hpre hocc
            obtain ⟨g', hg, htab, hlen⟩ := ih _ _ (done ++ [owner]) g hpre1 _ _ _ hrec
            refine ⟨g', fun o ho => hg o (List.mem_append_left _ ho), ?_, by simp [hlen]⟩
            have hre : (done ++ [owner]) ++ owners1 = done ++ owner :: owners1 := by simp
            rwa [hre] at htab
        · rename_i hocc
          split at h
          · cases h
          · cases h
          · rename_i arr hval
            split at h
            · cases h
            · rename_i memo1 o2a2 owners1 hrec
              cases h
              obtain ⟨htd, hpre1⟩ := tablePre_vacant hpre hocc ((arr, true))
              obtain ⟨g', hg, htab, hlen⟩ := ih _ _ (done ++ [owner]) _ hpre1 _ _ _ hrec
              refine ⟨g', ?_, ?_, by simp [hlen]⟩
              · intro o ho
                have hot : o ≠ owner := fun he => htd (he ▸ ho)
                rw [hg o (List.mem_append_left _ ho)]
                simp [hot]
              · have hre : (done ++ [owner]) ++ owners1 = done ++ owner :: owners1 := by
                  simp
                rwa [hre] at htab

theorem build_owners_var_value {vars : VariableMap} :
    ∀ (ts : List Tensor) (memo : OutputMap) (o2a : OwnerMap),
      (∀ u, (vars u).isSome → memo u = none) →
      (∀ o a, vars o = some a → ∀ p c, o2a o = some (p, c) → p = (a, false)) →
      ∀ (memo' : OutputMap) (o2a' : OwnerMap) (owners : List Tensor),
        build_owners vars ts memo o2a = .ok (memo', o2a', owners) →
        ∀ o a, vars o = some a → ∀ p c, o2a' o = some (p, c) → p = (a, false) := by
  intro ts
  induction ts with
  | nil =>
    intro memo o2a hdis hinv memo' o2a' owners h
    unfold build_owners at h
    cases h
    exact hinv
  | cons t rest ih =>
    intro memo o2a hdis hinv memo' o2a' owners h
    unfold build_owners at h
    split at h
    · rename_i var hvar
      split at h
      · rename_i entry c hocc
        split at h
        · cases h
        · rename_i memo1 o2a2 owners1 hrec
          cases h
          refine ih _ _ hdis ?_ _ _ _ hrec
          intro o a ha p c2 hp
          by_cases hot : o = t
          · subst hot
            rw [mapUpd_self] at hp
            cases hp
            exact hinv o a ha entry c hocc
          · rw [mapUpd_ne _ _ _ hot] at hp
            exact hinv o a ha p c2 hp
      · rename_i hocc
        split at h
        · cases h
        · rename_i memo1 o2a2 owners1 hrec
          cases h
          refine ih _ _ hdis ?_ _ _ _ hrec
          intro o a ha p c2 hp
          by_cases hot : o = t
          · subst hot
            rw [mapUpd_self] at hp
            cases hp
            rw [hvar] at ha
            cases ha
            rfl
          · rw [mapUpd_ne _ _ _ hot] at hp
            exact hinv o a ha p c2 hp
    · rename_i hvar
      split at h
      · cases h
      · rename_i owner hseek
        split at h
        · rename_i entry c hocc
          split at h
          · cases h
          · rename_i memo1 o2a2 owners1 hrec
            cases h
            refine ih _ _ hdis ?_ _ _ _ hrec
            intro o a ha p c2 hp
            by_cases hot : o = owner
            · subst hot
              rw [mapUpd_self] at hp
              cases hp
              exact hinv o a ha entry c hocc
            · rw [mapUpd_ne _ _ _ hot] at hp
              exact hinv o a ha p c2 hp
        · rename_i hocc
          split at h
          · cases h
          · cases h
          · rename_i arr hval
            split at h
            · cases h
            · rename_i memo1 o2a2 owners1 hrec
              cases h
              refine ih _ _ ?_ ?_ _ _ _ hrec
              · intro u hu
                by_cases huo : u = owner
                · subst huo
                  exact mapDel_self _ _
                · rw [mapDel_ne _ _ huo]
                  exact hdis u hu
              · intro o a ha p c2 hp
                by_cases hot : o = owner
                · subst hot
                  exfalso
                  have := hdis o (by simp [ha])
                  rw [this] at hval
                  cases hval
                · rw [mapUpd_ne _ _ _ hot] at hp
                  exact hinv o a ha p c2 hp

theorem build_owners_memo_flag {vars : VariableMap} :
    ∀ (ts : List Tensor) (memo : OutputMap) (o2a : OwnerMap),
      (∀ o, vars o = none → ∀ p c, o2a o = some (p, c) → p.2 = true) →
      ∀ (memo' : OutputMap) (o2a' : OwnerMap) (owners : List Tensor),
        build_owners vars ts memo o2a = .ok (memo', o2a', owners) →
        ∀ o, vars o = none → ∀ p c, o2a' o = some (p, c) → p.2 = true := by
  intro ts
  induction ts with
  | nil =>
    intro memo o2a hinv memo' o2a' owners h
    unfold build_owners at h
    cases h
    exact hinv
  | cons t rest ih =>
    intro memo o2a hinv memo' o2a' owners h
    unfold build_owners at h
    split at h
    · rename_i var hvar
      split at h
      · rename_i entry c hocc
        split at h
        · cases h
        · rename_i memo1 o2a2 owners1 hrec
          cases h
          refine ih _ _ ?_ _ _ _ hrec
          intro o ho p c2 hp
          by_cases hot : o = t
          · subst hot
            rw [ho] at hvar
            cases hvar
          · rw [mapUpd_ne _ _ _ hot] at hp
            exact hinv o ho p c2 hp
      · rename_i hocc
        split at h
        · cases h
        · rename_i memo1 o2a2 owners1 hrec
          cases h
          refine ih _ _ ?_ _ _ _ hrec
          intro o ho p c2 hp
          by_cases hot : o = t
          · subst hot
            rw [ho] at hvar
            cases hvar
          · rw [mapUpd_ne _ _ _ hot] at hp
            exact hinv o ho p c2 hp
    · rename_i hvar
      split at h
      · cases h
      · rename_i owner hseek
        split at h
        · rename_i entry c hocc
          split at h
          · cases h
          · rename_i memo1 o2a2 owners1 hrec
            cases h
            refine ih _ _ ?_ _ _ _ hrec
            intro o ho p c2 hp
            by_cases hot : o = owner
            · subst hot
              rw [mapUpd_self] at hp
              cases hp
              exact hinv o ho entry c hocc
            · rw [mapUpd_ne _ _ _ hot] at hp
              exact hinv o ho p c2 hp
        · rename_i hocc
          split at h
          · cases h
          · cases h
          · rename_i arr hval
            split at h
            · cases h
            · rename_i memo1 o2a2 owners1 hrec
              cases h
              refine ih _ _ ?_ _ _ _ hrec
              intro o ho p c2 hp
              by_cases hot : o = owner
              · subst hot
                rw [mapUpd_self] at hp
                cases hp
                rfl
              · rw [mapUpd_ne _ _ _ hot] at hp
                exact hinv o ho p c2 hp

theorem build_owners_pos {vars : VariableMap} :
    ∀ (ts : List Tensor) (memo : OutputMap) (o2a : OwnerMap)
      (memo' : OutputMap) (o2a' : OwnerMap) (owners : List Tensor),
      build_owners vars ts memo o2a = .ok (memo', o2a', owners) →
      ∀ i t, ts.get? i = some t → (vars t).isSome →
        owners.get? i = some t := by
  intro ts
  induction ts with
  | nil =>
    intro memo o2a memo' o2a' owners h i t hi
    cases i <;> cases hi
  | cons t0 rest ih =>
    intro memo o2a memo' o2a' owners h i t hi hv
    unfold build_owners at h
    split at h
    · rename_i var hvar
      split at h
      · rename_i entry c hocc
        split at h
        · cases h
        · rename_i memo1 o2a2 owners1 hrec
          cases h
          cases i with
          | zero =>
            simp only [List.get?] at hi
            cases hi
            rfl
          | succ n =>
            simp only [List.get?] at hi ⊢
            exact ih _ _ _ _ _ hrec n t hi hv
      · rename_i hocc
        split at h
        · cases h
        · rename_i memo1 o2a2 owners1 hrec
          cases h
          cases i with
          | zero =>
            simp only [List.get?] at hi
            cases hi
            rfl
          | succ n =>
            simp only [List.get?] at hi ⊢
            exact ih _ _ _ _ _ hrec n t hi hv
    · rename_i hvar
      split at h
      · cases h
      · rename_i owner hseek
        split at h
        · rename_i entry c hocc
          split at h
          · cases h
          · rename_i memo1 o2a2 owners1 hrec
            cases h
            cases i with
            | zero =>
              simp only [List.get?] at hi
              cases hi
              rw [hvar] at hv
              cases hv
            | succ n =>
              simp only [List.get?] at hi ⊢
              exact ih _ _ _ _ _ hrec n t hi hv
        · rename_i hocc
          split at h
          · cases h
          · cases h
          · rename_i arr hval
            split at h
            · cases h
            · rename_i memo1 o2a2 owners1 hrec
              cases h
              cases i with
              | zero =>
                simp only [List.get?] at hi
                cases hi
                rw [hvar] at hv
                cases hv
              | succ n =>
                simp only [List.get?] at hi ⊢
                exact ih _ _ _ _ _ hrec n t hi hv

theorem build_owners_memo_subset {vars : VariableMap} :
    ∀ (ts : List Tensor) (memo : OutputMap) (o2a : OwnerMap)
      (memo' : OutputMap) (o2a' : OwnerMap) (owners : List Tensor),
      build_owners vars ts memo o2a = .ok (memo', o2a', owners) →
      ∀ u, memo' u = memo u ∨ (memo' u = none ∧ u ∈ owners) := by
  intro ts
  induction ts with
  | nil =>
    intro memo o2a memo' o2a' owners h u
    unfold build_owners at h
    cases h
    exact Or.inl rfl
  | cons t0 rest ih =>
    intro memo o2a memo' o2a' owners h u
    unfold build_owners at h
    split at h
    · rename_i var hvar
      split at h
      · rename_i entry c hocc
        split at h
        · cases h
        · rename_i memo1 o2a2 owners1 hrec
          cases h
          rcases ih _ _ _ _ _ hrec u with hl | ⟨hn, hm⟩
          · exact Or.inl hl
          · exact Or.inr ⟨hn, List.mem_cons_of_mem _ hm⟩
      · rename_i hocc
        split at h
        · cases h
        · rename_i memo1 o2a2 owners1 hrec
          cases h
          rcases ih _ _ _ _ _ hrec u with hl | ⟨hn, hm⟩
          · exact Or.inl hl
          · exact Or.inr ⟨hn, List.mem_cons_of_mem _ hm⟩
    · rename_i hvar
      split at h
      · cases h
      · rename_i owner hseek
        split at h
        · rename_i entry c hocc
          split at h
          · cases h
          · rename_i memo1 o2a2 owners1 hrec
            cases h
            rcases ih _ _ _ _ _ hrec u with hl | ⟨hn, hm⟩
            · exact Or.inl hl
            · exact Or.inr ⟨hn, List.mem_cons_of_mem _ hm⟩
        · rename_i hocc
          split at h
          · cases h
          · cases h
          · rename_i arr hval
            split at h
            · cases h
            · rename_i memo1 o2a2 owners1 hrec
              cases h
              rcases ih _ _ _ _ _ hrec u with hl | ⟨hn, hm⟩
              · by_cases huo : u = owner
                · subst huo
                  rw [mapDel_self] at hl
                  exact Or.inr ⟨hl, by simp⟩
                · rw [mapDel_ne _ _ huo] at hl
                  exact Or.inl hl
              · exact Or.inr ⟨hn, List.mem_cons_of_mem _ hm⟩

/-- The expected output of the second loop of `eval_tensors`, given the final
owner table values `g`: a request whose owner occurs again later in the list
receives a clone, the last request for each owner receives the table's array
with its provenance flag. -/
def expectedOut (g : Tensor → NdArray × Bool) : List Tensor → List (NdArray × Bool)
  | [] => []
  | o :: rest =>
    (if o ∈ rest then ((g o).1, false) else g o) :: expectedOut g rest

theorem expectedOut_length (g : Tensor → NdArray × Bool) :
    ∀ L, (expectedOut g L).length = L.length := by
  intro L
  induction L with
  | nil => rfl
  | cons o rest ih => simp [expectedOut, ih]

theorem expectedOut_get? (g : Tensor → NdArray × Bool) :
    ∀ (L : List Tensor) (k : Nat) (o : Tensor), L.get? k = some o →
      (expectedOut g L).get? k =
        some (if o ∈ L.drop (k + 1) then ((g o).1, false) else g o) := by
  intro L
  induction L with
  | nil => intro k o h; cases k <;> cases h
  | cons a rest ih =>
    intro k o h
    cases k with
    | zero =>
      simp only [List.get?] at h
      cases h
      simp [expectedOut]
    | succ n =>
      simp only [List.get?] at h
      simp only [expectedOut, List.get?, List.drop]
      exact ih n o h

theorem emit_results_spec :
    ∀ (L : List Tensor) (o2a : OwnerMap) (g : Tensor → NdArray × Bool),
      (∀ o ∈ L, o2a o = some (g o, L.count o)) →
      ∃ o2aF, emit_results L o2a = .ok (expectedOut g L, o2aF) := by
  intro L
  induction L with
  | nil =>
    intro o2a g hpre
    exact ⟨o2a, rfl⟩
  | cons o rest ih =>
    intro o2a g hpre
    have ho := hpre o (by simp)
    rw [List.count_cons_self] at ho
    rcases hgo : g o with ⟨arr, orig⟩
    rw [hgo] at ho
    unfold emit_results
    simp only [ho]
    by_cases hmem : o ∈ rest
    · have hpos : rest.count o ≠ 0 := fun h0 => (List.count_eq_zero.mp h0) hmem
      rw [if_pos (by omega)]
      have hstep : ∀ o' ∈ rest,
          mapUpd o2a o ((arr, orig), rest.count o + 1 - 1) o' =
            some (g o', rest.count o') := by
        intro o' ho'
        by_cases hoo : o' = o
        · subst hoo
          rw [mapUpd_self, hgo]
          simp
        · rw [mapUpd_ne _ _ _ hoo]
          have := hpre o' (List.mem_cons_of_mem o ho')
          rwa [List.count_cons_of_ne hoo] at this
      obtain ⟨o2aF, hrec⟩ := ih _ g hstep
      rw [hrec]
      refine ⟨o2aF, ?_⟩
      simp [expectedOut, hmem, hgo]
    · have h0 : rest.count o = 0 := List.count_eq_zero.mpr hmem
      rw [h0, if_neg (by omega)]
      have hstep : ∀ o' ∈ rest, mapDel o2a o o' = some (g o', rest.count o') := by
        intro o' ho'
        have hoo : o' ≠ o := fun he => hmem (he ▸ ho')
        rw [mapDel_ne _ _ hoo]
        have := hpre o' (List.mem_cons_of_mem o ho')
        rwa [List.count_cons_of_ne hoo] at this
      obtain ⟨o2aF, hrec⟩ := ih _ g hstep
      rw [hrec]
      refine ⟨o2aF, ?_⟩
      simp [expectedOut, hmem, hgo]

/-! ### Entry-point decomposition and auxiliary lemmas -/

theorem eval_tensors_cl_ok {ops : Ops} {ts : List Tensor} {vars : VariableMap}
    {memo : OutputMap} {out : List (NdArray × Bool)} {v' : VariableMap}
    {m' : OutputMap}
    (h : eval_tensors_cl ops ts vars memo = .ok (out, v', m')) :
    ∃ m1 o2a owners o2aF,
      perform_eval_list ops ts vars memo = .ok (v', m1) ∧
      build_owners v' ts m1 mapEmpty = .ok (m', o2a, owners) ∧
      emit_results owners o2a = .ok (out, o2aF) := by
  unfold eval_tensors_cl at h
  split at h
  · cases h
  · rename_i v1 m1 hlist
    split at h
    · cases h
    · rename_i m2 o2a owners hbuild
      split at h
      · cases h
      · rename_i res o2aF hemit
        cases h
        exact ⟨m1, o2a, owners, o2aF, hlist, hbuild, hemit⟩

theorem ref_results_resolvable {vars : VariableMap} {memo : OutputMap} :
    ∀ (ts : List Tensor) (res : List NdArray),
      ref_results vars memo ts = .ok res →
      ∀ t ∈ ts, (vars t).isSome ∨ (memo t).isSome := by
  intro ts
  induction ts with
  | nil => intro res h t ht; cases ht
  | cons x rest ih =>
    intro res h t ht
    unfold ref_results at h
    split at h
    · cases h
    · rename_i a heq
      split at h
      · cases h
      · rename_i tl hrest
        rcases List.mem_cons.mp ht with he | hm
        · subst he
          split at heq
          · rename_i b hb
            exact Or.inl (by simp [hb])
          · rename_i hb
            rcases hmt : memo t with _ | r
            · rw [seek_array_owner_eq_none hmt] at heq
              simp only [hmt] at heq
              cases heq
            · exact Or.inr (by simp)
        · exact ih tl hrest t hm

theorem eval_tensors_ref_ok {ops : Ops} {ts : List Tensor} {vars : VariableMap}
    {memo : OutputMap} {res : List NdArray} {v' : VariableMap} {m' : OutputMap}
    (h : eval_tensors_ref ops ts vars memo = .ok (res, v', m')) :
    perform_eval_list ops ts vars memo = .ok (v', m') ∧
    ref_results v' m' ts = .ok res := by
  unfold eval_tensors_ref at h
  split at h
  · cases h
  · rename_i v1 m1 hlist
    split at h
    · cases h
    · rename_i res2 hread
      cases h
      exact ⟨hlist, hread⟩

theorem eval_tensors_ref_idempotent {ops : Ops} {ts : List Tensor}
    {vars : VariableMap} {memo : OutputMap} {res : List NdArray}
    {v' : VariableMap} {m' : OutputMap}
    (h : eval_tensors_ref ops ts vars memo = .ok (res, v', m')) :
    eval_tensors_ref ops ts v' m' = .ok (res, v', m') := by
  obtain ⟨hwalk, hread⟩ := eval_tensors_ref_ok h
  have hres := ref_results_resolvable ts res hread
  have hnoop : perform_eval_list ops ts v' m' = .ok (v', m') :=
    perform_eval_list_noop hres
  unfold eval_tensors_ref
  rw [hnoop]
  simp only [hread]

theorem build_owners_error_classes {vars : VariableMap} :
    ∀ (ts : List Tensor) (memo : OutputMap) (o2a : OwnerMap) (e : EvalPanic),
      build_owners vars ts memo o2a = .error e →
      e = .unwrapNone ∨ e = .unwrapErr ∨ e = .indexOutOfBounds ∨
        ∃ y msg, e = .badInput y msg := by
  intro ts
  induction ts with
  | nil =>
    intro memo o2a e h
    unfold build_owners at h
    cases h
  | cons t rest ih =>
    intro memo o2a e h
    unfold build_owners at h
    split at h
    · rename_i var hvar
      split at h
      · split at h
        · rename_i hrec
          cases h
          exact ih _ _ _ hrec
        · cases h
      · split at h
        · rename_i hrec
          cases h
          exact ih _ _ _ hrec
        · cases h
    · rename_i hvar
      split at h
      · rename_i hseek
        cases h
        rcases seek_array_owner_error_classes _ _ _ hseek with h1 | ⟨y, msg, h1⟩
        · exact Or.inr (Or.inr (Or.inl h1))
        · exact Or.inr (Or.inr (Or.inr ⟨y, msg, h1⟩))
      · rename_i owner hseek
        split at h
        · split at h
          · rename_i hrec
            cases h
            exact ih _ _ _ hrec
          · cases h
        · split at h
          · cases h
            exact Or.inl rfl
          · cases h
            exact Or.inr (Or.inl rfl)
          · split at h
            · rename_i hrec
              cases h
              exact ih _ _ _ hrec
            · cases h

theorem emit_results_error_classes :
    ∀ (L : List Tensor) (o2a : OwnerMap) (e : EvalPanic),
      emit_results L o2a = .error e → e = .unwrapNone := by
  intro L
  induction L with
  | nil =>
    intro o2a e h
    cases h
  | cons o rest ih =>
    intro o2a e h
    unfold emit_results at h
    split at h
    · cases h
      rfl
    · split at h
      · split at h
        · rename_i hrec
          cases h
          exact ih _ _ hrec
        · cases h
      · split at h
        · rename_i hrec
          cases h
          exact ih _ _ hrec
        · cases h

theorem eval_tensors_no_unreachable {ops : Ops} {ts : List Tensor}
    {vars : VariableMap} {memo : OutputMap} {e : EvalPanic}
    (h : eval_tensors ops ts vars memo = .error e) :
    e ≠ .unreachableInplace := by
  unfold eval_tensors at h
  rcases hcl : eval_tensors_cl ops ts vars memo with e2 | r
  · rw [hcl] at h
    cases h
    unfold eval_tensors_cl at hcl
    split at hcl
    · rename_i hlist
      cases hcl
      exact perform_eval_list_no_unreachable _ _ _ _ hlist
    · split at hcl
      · rename_i hbuild
        cases hcl
        rcases build_owners_error_classes _ _ _ _ hbuild with
          h1 | h1 | h1 | ⟨y, msg, h1⟩ <;> simp [h1]
      · split at hcl
        · rename_i hemit
          cases hcl
          have := emit_results_error_classes _ _ _ hemit
          simp [this]
        · cases hcl
  · rw [hcl] at h
    cases h

theorem migrate_after_write_some {v1 : VariableMap} {m1 : OutputMap}
    {x0 : Tensor} {newArr : NdArray} {v2 : VariableMap} {m2 : OutputMap}
    {rest : List Tensor} {xs : List NdArray}
    (hmk : make_xs v1 m1 (x0 :: rest) = .ok xs)
    (hwm : write_mutated v1 m1 x0 newArr = .ok (v2, m2)) :
    (m2 x0).isSome ∨ (v2 x0).isSome := by
  rcases write_mutated_ok hwm with ⟨hvx, hv, hm⟩ | ⟨hvnone, own, hown, hv, hm⟩
  · subst hv hm
    exact Or.inr (by simp [mapUpd_self])
  · subst hv hm
    rcases make_xs_head hmk with hvx | ⟨arr, hseek⟩
    · rw [hvnone] at hvx
      cases hvx
    · have hm1 : (m1 x0).isSome := seek_array_memo_isSome _ x0 arr hseek
      left
      by_cases hxo : x0 = own
      · subst hxo
        simp [mapUpd_self]
      · rw [mapUpd_ne _ _ _ hxo]
        exact hm1

theorem perform_eval_inplace_migrates {ops : Ops} {target : Tensor}
    {vars : VariableMap} {memo : OutputMap} {v1 : VariableMap} {m1 : OutputMap}
    {xs : List NdArray} {newArr : NdArray} {x0 : Tensor}
    {v2 : VariableMap} {m2 : OutputMap}
    (hvt : vars target = none) (hmt : memo target = none)
    (hlist : perform_eval_list ops target.inputs vars memo = .ok (v1, m1))
    (hmk : make_xs v1 m1 target.inputs = .ok xs)
    (hip : (ops target.opId).inplace = true)
    (hci : (ops target.opId).compute_inplace xs = .ok newArr)
    (hget : target.inputs.get? 0 = some x0)
    (hwm : write_mutated v1 m1 x0 newArr = .ok (v2, m2)) :
    ∃ v' m', perform_eval ops target vars memo = .ok (v', m') ∧
      ((∃ y, m2 x0 = some y ∧ v' = v2 ∧ m' = mapUpd (mapDel m2 x0) target y) ∨
       (m2 x0 = none ∧ ∃ y, v2 x0 = some y ∧
         v' = mapUpd (mapDel v2 x0) target y ∧ m' = m2)) := by
  have hfin : finish_eval ops target v1 m1 = migrate_inplace target x0 v2 m2 := by
    unfold finish_eval
    simp only [hmk, hip, hci, hget, hwm, if_true]
  obtain ⟨tl, htl⟩ := List.get?_zero_eq_some hget
  rw [htl] at hmk
  have hsome := migrate_after_write_some hmk hwm
  rcases hm2 : m2 x0 with _ | y
  · rcases hv2 : v2 x0 with _ | y
    · rw [hm2, hv2] at hsome
      simp at hsome
    · refine ⟨mapUpd (mapDel v2 x0) target y, m2, ?_,
        Or.inr ⟨rfl, y, rfl, rfl, rfl⟩⟩
      rw [perform_eval_eq_step hvt hmt, hlist]
      show finish_eval ops target v1 m1 = _
      rw [hfin]
      unfold migrate_inplace
      simp only [hm2, hv2]
  · refine ⟨v2, mapUpd (mapDel m2 x0) target y, ?_, Or.inl ⟨y, rfl, rfl, rfl⟩⟩
    rw [perform_eval_eq_step hvt hmt, hlist]
    show finish_eval ops target v1 m1 = _
    rw [hfin]
    unfold migrate_inplace
    simp only [hm2]

theorem perform_eval_inplace_chain {ops : Ops} {target v0 : Tensor}
    {vars : VariableMap} {memo : OutputMap} {arr newArr : NdArray}
    (htarget : target.inputs = [v0])
    (hip : (ops target.opId).inplace = true)
    (hvar : vars v0 = some arr)
    (hmemo : memo v0 = none)
    (hvt : vars target = none)
    (hmt : memo target = none)
    (hci : (ops target.opId).compute_inplace [arr] = .ok newArr) :
    ∃ v', perform_eval ops target vars memo = .ok (v', memo) ∧
      v' v0 = none ∧ v' target = some newArr ∧
      ∀ u, u ≠ v0 → u ≠ target → v' u = vars u := by
  have hv0mem : v0 ∈ target.inputs := by rw [htarget]; simp
  have htv0 : target ≠ v0 := ne_of_sizeOf_lt (Tensor.sizeOf_lt_of_mem_inputs hv0mem)
  have hv0t : v0 ≠ target := Ne.symm htv0
  have hlist : perform_eval_list ops target.inputs vars memo = .ok (vars, memo) := by
    rw [htarget]
    refine perform_eval_list_noop ?_
    intro t ht
    rw [List.mem_singleton] at ht
    subst ht
    exact Or.inl (by simp [hvar])
  have hxs : make_xs vars memo target.inputs = .ok [arr] := by
    rw [htarget]
    unfold make_xs
    rw [hvar]
    rfl
  have hget : target.inputs.get? 0 = some v0 := by rw [htarget]; rfl
  have hwrite : write_mutated vars memo v0 newArr =
      .ok (mapUpd vars v0 newArr, memo) := by
    unfold write_mutated
    rw [hvar]
  have hmig : migrate_inplace target v0 (mapUpd vars v0 newArr) memo =
      .ok (mapUpd (mapDel (mapUpd vars v0 newArr) v0) target newArr, memo) := by
    unfold migrate_inplace
    rw [hmemo, mapUpd_self]
  have hfin : finish_eval ops target vars memo =
      .ok (mapUpd (mapDel (mapUpd vars v0 newArr) v0) target newArr, memo) := by
    unfold finish_eval
    simp only [hxs, hip, hci, hget, hwrite, if_true]
    exact hmig
  refine ⟨mapUpd (mapDel (mapUpd vars v0 newArr) v0) target newArr, ?_, ?_, ?_, ?_⟩
  · rw [perform_eval_eq_step hvt hmt, hlist]
    exact hfin
  · rw [mapUpd_ne _ _ _ hv0t]
    exact mapDel_self _ _
  · exact mapUpd_self _ _ _
  · intro u hu1 hu2
    rw [mapUpd_ne _ _ _ hu2, mapDel_ne _ _ hu1, mapUpd_ne _ _ _ hu1]

theorem perform_eval_list_cons_ok {ops : Ops} {x : Tensor} {rest : List Tensor}
    {vars : VariableMap} {memo : OutputMap} {v1 : VariableMap} {m1 : OutputMap}
    {r : Except EvalPanic (VariableMap × OutputMap)}
    (h1 : perform_eval ops x vars memo = .ok (v1, m1))
    (h2 : perform_eval_list ops rest v1 m1 = r) :
    perform_eval_list ops (x :: rest) vars memo = r := by
  rw [perform_eval_list_cons, h1]
  exact h2

theorem perform_eval_step_ok {ops : Ops} {target : Tensor}
    {vars : VariableMap} {memo : OutputMap} {v1 : VariableMap} {m1 : OutputMap}
    {r : Except EvalPanic (VariableMap × OutputMap)}
    (hvt : vars target = none) (hmt : memo target = none)
    (hl : perform_eval_list ops target.inputs vars memo = .ok (v1, m1))
    (hf : finish_eval ops target v1 m1 = r) :
    perform_eval ops target vars memo = r := by
  rw [perform_eval_eq_step hvt hmt, hl]
  exact hf

theorem eval_tensors_cl_intro {ops : Ops} {ts : List Tensor}
    {vars : VariableMap} {memo : OutputMap} {v1 : VariableMap}
    {m1 m2 : OutputMap} {o2a o2aF : OwnerMap} {owners : List Tensor}
    {out : List (NdArray × Bool)}
    (h1 : perform_eval_list ops ts vars memo = .ok (v1, m1))
    (h2 : build_owners v1 ts m1 mapEmpty = .ok (m2, o2a, owners))
    (h3 : emit_results owners o2a = .ok (out, o2aF)) :
    eval_tensors_cl ops ts vars memo = .ok (out, v1, m2) := by
  unfold eval_tensors_cl
  rw [h1]
  show (match build_owners v1 ts m1 mapEmpty with
        | .error e => Except.error e
        | .ok (memo2, o2a, owners) =>
          match emit_results owners o2a with
          | .error e => Except.error e
          | .ok (out, _) => Except.ok (out, v1, memo2)) = _
  rw [h2]
  show (match emit_results owners o2a with
        | .error e => Except.error e
        | .ok (out, _) => Except.ok (out, v1, m2)) = _
  rw [h3]

theorem nodup_get?_not_mem_drop {l : List Tensor} (hnd : l.Nodup) :
    ∀ (k : Nat) (o : Tensor), l.get? k = some o → o ∉ l.drop (k + 1) := by
  induction l with
  | nil => intro k o h; cases k <;> cases h
  | cons a rest ih =>
    intro k o h
    cases k with
    | zero =>
      simp only [List.get?] at h
      cases h
      simp only [List.drop]
      exact (List.nodup_cons.mp hnd).1
    | succ n =>
      simp only [List.get?] at h
      simp only [List.drop]
      exact ih (List.nodup_cons.mp hnd).2 n o h

theorem eval_tensors_cl_disjoint {ops : Ops} {ts : List Tensor}
    {vars : VariableMap} {memo : OutputMap} {out : List (NdArray × Bool)}
    {v' : VariableMap} {m' : OutputMap}
    (h : eval_tensors_cl ops ts vars memo = .ok (out, v', m'))
    (hd : DisjointMaps vars memo) : DisjointMaps v' m' := by
  obtain ⟨m1, o2a, owners, o2aF, hlist, hbuild, hemit⟩ := eval_tensors_cl_ok h
  have hd1 : DisjointMaps v' m1 := perform_eval_list_disjoint hlist hd
  intro u hu
  rcases build_owners_memo_subset _ _ _ _ _ _ hbuild u with heq | ⟨hn, _⟩
  · rw [heq]
    exact hd1 u hu
  · exact hn

theorem eval_tensors_disjoint {ops : Ops} {ts : List Tensor}
    {vars : VariableMap} {memo : OutputMap} {res : List NdArray}
    {v' : VariableMap} {m' : OutputMap}
    (h : eval_tensors ops ts vars memo = .ok (res, v', m'))
    (hd : DisjointMaps vars memo) : DisjointMaps v' m' := by
  unfold eval_tensors at h
  rcases hcl : eval_tensors_cl ops ts vars memo with e | ⟨out, v2, m2⟩
  · rw [hcl] at h
    cases h
  · rw [hcl] at h
    cases h
    exact eval_tensors_cl_disjoint hcl hd

theorem eval_tensors_ref_disjoint {ops : Ops} {ts : List Tensor}
    {vars : VariableMap} {memo : OutputMap} {res : List NdArray}
    {v' : VariableMap} {m' : OutputMap}
    (h : eval_tensors_ref ops ts vars memo = .ok (res, v', m'))
    (hd : DisjointMaps vars memo) : DisjointMaps v' m' :=
  perform_eval_list_disjoint (eval_tensors_ref_ok h).1 hd

theorem eval_disjoint {ops : Ops} {xs : List Tensor} {ctx ctx' : Context}
    {res : List NdArray} (h : eval ops xs ctx = .ok (res, ctx')) :
    DisjointMaps ctx'.vars ctx'.outputs := by
  unfold eval at h
  split at h
  · cases h
  · cases h
    intro u _
    rfl

theorem finish_eval_vars_preserved {ops : Ops} {target : Tensor}
    {vars : VariableMap} {memo : OutputMap} {v' : VariableMap} {m' : OutputMap}
    (hni : ∀ n, (ops n).inplace = false)
    (h : finish_eval ops target vars memo = .ok (v', m')) : v' = vars := by
  unfold finish_eval at h
  split at h
  · cases h
  · split at h
    · rename_i hip
      rw [hni target.opId] at hip
      cases hip
    · cases h
      rfl

theorem perform_eval_vars_preserved_n {ops : Ops}
    (hni : ∀ n, (ops n).inplace = false) :
    ∀ (n : Nat) (target : Tensor), sizeOf target ≤ n →
      ∀ (vars : VariableMap) (memo : OutputMap) v' m',
        perform_eval ops target vars memo = .ok (v', m') → v' = vars := by
  intro n
  induction n with
  | zero =>
    intro t ht
    have := Tensor.sizeOf_pos t
    omega
  | succ n ihn =>
    intro t ht v m v' m' h
    have hlistpres : ∀ (ts : List Tensor), (∀ x ∈ ts, sizeOf x ≤ n) →
        ∀ (va : VariableMap) (me : OutputMap) va' me',
          perform_eval_list ops ts va me = .ok (va', me') → va' = va := by
      intro ts hts
      induction ts with
      | nil =>
        intro va me va' me' hl
        rw [perform_eval_list_nil] at hl
        cases hl
        rfl
      | cons x rest ihl =>
        intro va me va' me' hl
        rw [perform_eval_list_cons] at hl
        split at hl
        · cases hl
        · rename_i va1 me1 hx
          have h1 : va1 = va := ihn x (hts x (by simp)) va me va1 me1 hx
          have h2 : va' = va1 :=
            ihl (fun y hy => hts y (List.mem_cons_of_mem x hy)) va1 me1 va' me' hl
          rw [h2, h1]
    rw [perform_eval.eq_def] at h
    split at h
    · cases h
      rfl
    · split at h
      · cases h
      · rename_i v1 m1 hlist
        have h1 : v1 = v := hlistpres t.inputs
          (fun x hx => by have := Tensor.sizeOf_lt_of_mem_inputs hx; omega)
          v m v1 m1 hlist
        have h2 : v' = v1 := finish_eval_vars_preserved hni h
        rw [h2, h1]

theorem perform_eval_list_vars_preserved {ops : Ops} {ts : List Tensor}
    {vars : VariableMap} {memo : OutputMap} {v' : VariableMap} {m' : OutputMap}
    (hni : ∀ n, (ops n).inplace = false)
    (h : perform_eval_list ops ts vars memo = .ok (v', m')) : v' = vars := by
  induction ts generalizing vars memo with
  | nil =>
    rw [perform_eval_list_nil] at h
    cases h
    rfl
  | cons x rest ih =>
    rw [perform_eval_list_cons] at h
    split at h
    · cases h
    · rename_i v1 m1 hx
      have h1 : v1 = vars :=
        perform_eval_vars_preserved_n hni (sizeOf x) x (le_refl _) _ _ _ _ hx
      rw [ih h, h1]

theorem eval_tensors_badInput_single {ops : Ops} {t : Tensor}
    {vars : VariableMap} {memo : OutputMap} {v1 : VariableMap} {m1 : OutputMap}
    {f : Tensor} {msg : String}
    (hlist : perform_eval_list ops [t] vars memo = .ok (v1, m1))
    (hv : v1 t = none)
    (hreach : Delegates m1 t f)
    (hf : m1 f = some (.error (.BadInput msg))) :
    eval_tensors ops [t] vars memo = .error (.badInput f msg) := by
  have hseek := seek_array_owner_badInput m1 hreach hf
  have hbuild : build_owners v1 [t] m1 mapEmpty = .error (.badInput f msg) := by
    unfold build_owners
    simp only [hv, hseek]
  have hcl : eval_tensors_cl ops [t] vars memo = .error (.badInput f msg) := by
    unfold eval_tensors_cl
    rw [hlist]
    show (match build_owners v1 [t] m1 mapEmpty with
          | .error e => Except.error e
          | .ok (memo2, o2a, owners) =>
            match emit_results owners o2a with
            | .error e => Except.error e
            | .ok (out, _) => Except.ok (out, v1, memo2)) = _
    rw [hbuild]
  unfold eval_tensors
  rw [hcl]
  rfl

/-! ### Concrete fixtures

A small operator environment and graph mirroring the crate's doc examples:
`wB = ones([2])`, `wV = variable([1,1])`, `wC = sub_inplace(wV, ...)`,
`wF` an operator that reports Bad Input, `wD` an in-place operator whose
kernel fails. -/

def wOnes : Op :=
  ⟨false, fun _ => .ok [1, 1], fun _ => .error "ones kernel is allocating"⟩

def wSubIp : Op :=
  ⟨true, fun _ => .error (.BadInput "sub runs in place"),
   fun xs => .ok ((xs.headD []).map (fun a => a - 1))⟩

def wBadOp : Op :=
  ⟨false, fun _ => .error (.BadInput "bad input"), fun _ => .error "never"⟩

def wIpFail : Op :=
  ⟨true, fun _ => .error (.BadInput "never"), fun _ => .error "boom"⟩

def wLeafOp : Op :=
  ⟨false, fun _ => .error (.BadInput "leaf is never computed"),
   fun _ => .error "never"⟩

def wOps : Ops := fun n =>
  if n = 0 then wOnes
  else if n = 2 then wSubIp
  else if n = 3 then wBadOp
  else if n = 4 then wIpFail
  else wLeafOp

def wV : Tensor := .mk 9 []

def wC : Tensor := .mk 2 [wV]

def wB : Tensor := .mk 0 []

def wF : Tensor := .mk 3 []

def wD : Tensor := .mk 4 [wV]

def wVars : VariableMap := mapUpd mapEmpty wV [1, 1]

def wVars2 : VariableMap :=
  mapUpd (mapDel (mapUpd wVars wV [0, 0]) wV) wC [0, 0]

def wMemoF : OutputMap := mapUpd mapEmpty wF (.error (.BadInput "bad input"))

def wMemoB : OutputMap := mapUpd mapEmpty wB (.ok [1, 1])

theorem wpel_V : perform_eval_list wOps [wV] wVars mapEmpty = .ok (wVars, mapEmpty) :=
  perform_eval_list_cons_ok (perform_eval_eq_resolved (Or.inl rfl))
    perform_eval_list_nil

theorem wpel_VV :
    perform_eval_list wOps [wV, wV] wVars mapEmpty = .ok (wVars, mapEmpty) :=
  perform_eval_list_cons_ok (perform_eval_eq_resolved (Or.inl rfl)) wpel_V

theorem wpe_C : perform_eval wOps wC wVars mapEmpty = .ok (wVars2, mapEmpty) :=
  perform_eval_step_ok rfl rfl wpel_V rfl

theorem wpel_C :
    perform_eval_list wOps [wC] wVars mapEmpty = .ok (wVars2, mapEmpty) :=
  perform_eval_list_cons_ok wpe_C perform_eval_list_nil

theorem wpe_F : perform_eval wOps wF mapEmpty mapEmpty = .ok (mapEmpty, wMemoF) :=
  perform_eval_step_ok rfl rfl perform_eval_list_nil rfl

theorem wpel_F :
    perform_eval_list wOps [wF] mapEmpty mapEmpty = .ok (mapEmpty, wMemoF) :=
  perform_eval_list_cons_ok wpe_F perform_eval_list_nil

theorem wpe_B : perform_eval wOps wB mapEmpty mapEmpty = .ok (mapEmpty, wMemoB) :=
  perform_eval_step_ok rfl rfl perform_eval_list_nil rfl

theorem wpel_B :
    perform_eval_list wOps [wB] mapEmpty mapEmpty = .ok (mapEmpty, wMemoB) :=
  perform_eval_list_cons_ok wpe_B perform_eval_list_nil

theorem wpe_D :
    perform_eval wOps wD wVars mapEmpty = .error (.inplaceBadInput "boom") :=
  perform_eval_step_ok rfl rfl wpel_V rfl

theorem wref_C :
    eval_tensors_ref wOps [wC] wVars mapEmpty = .ok ([[0, 0]], wVars2, mapEmpty) := by
  unfold eval_tensors_ref
  rw [wpel_C]
  rfl

theorem wseek_B : seek_array_owner wMemoB wB = .ok wB :=
  seek_array_owner_eq_value rfl

theorem wbuild_B :
    build_owners mapEmpty [wB] wMemoB mapEmpty =
      .ok (mapDel wMemoB wB, mapUpd mapEmpty wB (([1, 1], true), 1), [wB]) := by
  unfold build_owners
  simp only [wseek_B]
  rfl

/-- Combined description of one `eval_tensors` resolution run: the final
owner table assigns to every resolved owner a fixed entry `g' o` with the
owner's multiplicity as count, the emitted outputs are `expectedOut g'`, a
Variable-Map-resident owner's entry is its stored array marked as a clone
(under the disjointness invariant), and a cache-resolved owner's entry is
marked as the physical original. -/
theorem pipeline_table {v1 : VariableMap} {ts : List Tensor} {m1 m2 : OutputMap}
    {o2a o2aF : OwnerMap} {owners : List Tensor} {out : List (NdArray × Bool)}
    (hbuild : build_owners v1 ts m1 mapEmpty = .ok (m2, o2a, owners))
    (hemit : emit_results owners o2a = .ok (out, o2aF)) :
    ∃ g' : Tensor → NdArray × Bool,
      TablePre o2a owners g' ∧ owners.length = ts.length ∧
      out = expectedOut g' owners ∧
      (DisjointMaps v1 m1 →
        ∀ o a, v1 o = some a → o ∈ owners → g' o = (a, false)) ∧
      (∀ o, v1 o = none → o ∈ owners → (g' o).2 = true) := by
  have hpre0 : TablePre mapEmpty [] (fun _ => ([], false)) := by
    intro o
    exact ⟨fun h => absurd h (List.not_mem_nil o), fun _ => rfl⟩
  obtain ⟨g', hg, htab, hlen⟩ :=
    build_owners_table ts m1 mapEmpty [] _ hpre0 m2 o2a owners hbuild
  rw [List.nil_append] at htab
  have hpre : ∀ o ∈ owners, o2a o = some (g' o, owners.count o) :=
    fun o ho => (htab o).1 ho
  obtain ⟨o2aF2, hspec⟩ := emit_results_spec owners o2a g' hpre
  rw [hemit] at hspec
  simp only [Except.ok.injEq, Prod.mk.injEq] at hspec
  refine ⟨g', htab, hlen, hspec.1, ?_, ?_⟩
  · intro hdis o a ha ho
    exact build_owners_var_value ts m1 mapEmpty hdis
      (fun o a _ p c hp => Option.noConfusion hp) m2 o2a owners hbuild
      o a ha (g' o) _ (hpre o ho)
  · intro o hnone ho
    exact build_owners_memo_flag ts m1 mapEmpty
      (fun o _ p c hp => Option.noConfusion hp) m2 o2a owners hbuild
      o hnone (g' o) _ (hpre o ho)

/-! ### Claim theorems -/

/-- C2: for every in-place operator node whose `compute_inplace` succeeds,
`perform_eval` stores no freshly computed value under the node; instead
`inputs[0]`'s storage is migrated: its cache entry (when present) is removed
and re-inserted under the node's identity in the cache, and otherwise its
Variable Map entry is removed and re-inserted under the node's identity in
the Variable Map (first conjunct, stated for every run that reaches the
migration step, with the post-mutation state `(v2, m2)` of the write-back).
Second conjunct: for a chain `variable -> in_place_op`, evaluation succeeds,
the Variable Map no longer contains the original variable's identity, the
mutated value is keyed by the consuming node, the cache is untouched, and no
other Variable Map entry changes. -/
theorem claim_C2 :
    (∀ (ops : Ops) (target : Tensor) (vars v1 v2 : VariableMap)
       (memo m1 m2 : OutputMap) (xs : List NdArray) (newArr : NdArray)
       (x0 : Tensor),
      vars target = none → memo target = none →
      perform_eval_list ops target.inputs vars memo = .ok (v1, m1) →
      make_xs v1 m1 target.inputs = .ok xs →
      (ops target.opId).inplace = true →
      (ops target.opId).compute_inplace xs = .ok newArr →
      target.inputs.get? 0 = some x0 →
      write_mutated v1 m1 x0 newArr = .ok (v2, m2) →
      ∃ v' m', perform_eval ops target vars memo = .ok (v', m') ∧
        ((∃ y, m2 x0 = some y ∧ v' = v2 ∧ m' = mapUpd (mapDel m2 x0) target y) ∨
         (m2 x0 = none ∧ ∃ y, v2 x0 = some y ∧
           v' = mapUpd (mapDel v2 x0) target y ∧ m' = m2))) ∧
    (∀ (ops : Ops) (target v0 : Tensor) (vars : VariableMap) (memo : OutputMap)
       (arr newArr : NdArray),
      target.inputs = [v0] → (ops target.opId).inplace = true →
      vars v0 = some arr → memo v0 = none →
      vars target = none → memo target = none →
      (ops target.opId).compute_inplace [arr] = .ok newArr →
      ∃ v', perform_eval ops target vars memo = .ok (v', memo) ∧
        v' v0 = none ∧ v' target = some newArr ∧
        ∀ u, u ≠ v0 → u ≠ target → v' u = vars u) :=
  ⟨fun _ _ _ _ _ _ _ _ _ _ _ hvt hmt hlist hmk hip hci hget hwm =>
    perform_eval_inplace_migrates hvt hmt hlist hmk hip hci hget hwm,
   fun _ _ _ _ _ _ _ htarget hip hvar hmemo hvt hmt hci =>
    perform_eval_inplace_chain htarget hip hvar hmemo hvt hmt hci⟩

/-- Witness for C2: subtracting ones from the variable `[1,1]` in place,
the variable's entry disappears and the consuming node owns `[0,0]`. -/
theorem claim_C2_witness :
    ∃ v', perform_eval wOps wC wVars mapEmpty = .ok (v', mapEmpty) ∧
      v' wV = none ∧ v' wC = some [0, 0] ∧
      ∀ u, u ≠ wV → u ≠ wC → v' u = wVars u :=
  claim_C2.2 wOps wC wV wVars mapEmpty [1, 1] [0, 0] rfl rfl rfl rfl rfl rfl rfl

/-- C4: a `BadInput` failure recorded anywhere on a delegate chain aborts
both chain-resolution functions with a panic carrying the failing node and
the original diagnostic message (first two conjuncts); and a requested
target whose chain reaches such a failure aborts the whole `eval_tensors`
call with that same message (third conjunct). -/
theorem claim_C4 :
    (∀ (memo : OutputMap) (x f : Tensor) (msg : String),
      Delegates memo x f → memo f = some (.error (.BadInput msg)) →
        seek_array memo x = .error (.badInput f msg)) ∧
    (∀ (memo : OutputMap) (x f : Tensor) (msg : String),
      Delegates memo x f → memo f = some (.error (.BadInput msg)) →
        seek_array_owner memo x = .error (.badInput f msg)) ∧
    (∀ (ops : Ops) (t : Tensor) (vars v1 : VariableMap) (memo m1 : OutputMap)
       (f : Tensor) (msg : String),
      perform_eval_list ops [t] vars memo = .ok (v1, m1) →
      v1 t = none → Delegates m1 t f →
      m1 f = some (.error (.BadInput msg)) →
        eval_tensors ops [t] vars memo = .error (.badInput f msg)) :=
  ⟨fun memo _ _ _ hreach hf => seek_array_badInput memo hreach hf,
   fun memo _ _ _ hreach hf => seek_array_owner_badInput memo hreach hf,
   fun _ _ _ _ _ _ _ _ hlist hv hreach hf =>
    eval_tensors_badInput_single hlist hv hreach hf⟩

/-- Witness for C4: evaluating a node whose operator reports
`BadInput "bad input"` aborts `eval_tensors` with that message preserved. -/
theorem claim_C4_witness :
    eval_tensors wOps [wF] mapEmpty mapEmpty = .error (.badInput wF "bad input") :=
  claim_C4.2.2 wOps wF mapEmpty mapEmpty mapEmpty wMemoF wF "bad input"
    wpel_F rfl (Delegates.refl wF) rfl

/-- C5: `perform_eval` is memoized: a target already present in the Variable
Map or the memo returns immediately with both maps unchanged (so no operator
is invoked), and a second `perform_eval` of an already-evaluated target is
the identity on the evaluation state, so each node's operator runs at most
once per session. -/
theorem claim_C5 :
    (∀ (ops : Ops) (target : Tensor) (vars : VariableMap) (memo : OutputMap),
      (vars target).isSome ∨ (memo target).isSome →
        perform_eval ops target vars memo = .ok (vars, memo)) ∧
    (∀ (ops : Ops) (target : Tensor) (vars : VariableMap) (memo : OutputMap)
       (v' : VariableMap) (m' : OutputMap),
      perform_eval ops target vars memo = .ok (v', m') →
        perform_eval ops target v' m' = .ok (v', m')) :=
  ⟨fun _ _ _ _ h => perform_eval_eq_resolved h,
   fun _ _ _ _ _ _ h => perform_eval_idempotent h⟩

/-- Witness for C5: evaluating a node stored in the Variable Map returns
immediately with the state unchanged. -/
theorem claim_C5_witness :
    perform_eval wOps wV wVars mapEmpty = .ok (wVars, mapEmpty) :=
  claim_C5.1 wOps wV wVars mapEmpty (Or.inl rfl)

/-- C6: chain resolution terminates at a node whose cache entry is a `Value`
or at an identity absent from the cache: every owner returned by
`seek_array_owner` has a `Value` entry or no entry at all (first conjunct);
the array returned by `seek_array` is exactly the `Value` stored at that
owner (second conjunct); and when the memo holds no `Failure` entry and all
delegate indices are in bounds, `seek_array_owner` returns an owner without
any abort (third conjunct). -/
theorem claim_C6 :
    (∀ (memo : OutputMap) (x own : Tensor),
      seek_array_owner memo x = .ok own →
        memo own = none ∨ ∃ arr, memo own = some (.ok arr)) ∧
    (∀ (memo : OutputMap) (x : Tensor) (arr : NdArray),
      seek_array memo x = .ok arr →
        ∃ own, seek_array_owner memo x = .ok own ∧ memo own = some (.ok arr)) ∧
    (∀ memo : OutputMap,
      (∀ u msg, memo u ≠ some (.error (.BadInput msg))) →
      (∀ u i, memo u = some (.error (.Delegate i)) → i < u.inputs.length) →
      ∀ x, ∃ own, seek_array_owner memo x = .ok own) :=
  ⟨fun memo x own h => seek_array_owner_spec memo x own h,
   fun memo x arr h => seek_array_ok_owner memo x arr h,
   fun memo h1 h2 x => seek_array_owner_total memo h1 h2 x⟩

/-- Witness for C6: in the memo holding a single `Value` entry, resolution
from that node terminates at an owner with a `Value` or absent entry. -/
theorem claim_C6_witness :
    wMemoB wB = none ∨ ∃ arr, wMemoB wB = some (.ok arr) :=
  claim_C6.1 wMemoB wB wB wseek_B

/-- C7: the `unreachable!()` branch of the in-place migration is never
executed: no `perform_eval` call and no `eval_tensors` call ever aborts with
the internal-invariant-violation panic. -/
theorem claim_C7 :
    (∀ (ops : Ops) (target : Tensor) (vars : VariableMap) (memo : OutputMap)
       (e : EvalPanic),
      perform_eval ops target vars memo = .error e → e ≠ .unreachableInplace) ∧
    (∀ (ops : Ops) (ts : List Tensor) (vars : VariableMap) (memo : OutputMap)
       (e : EvalPanic),
      eval_tensors ops ts vars memo = .error e → e ≠ .unreachableInplace) :=
  ⟨fun _ t v m e h => perform_eval_no_unreachable t v m e h,
   fun _ _ _ _ _ h => eval_tensors_no_unreachable h⟩

/-- Witness for C7: an in-place kernel failure aborts with the kernel's own
panic, which is not the unreachable-state panic. -/
theorem claim_C7_witness :
    perform_eval wOps wD wVars mapEmpty = .error (.inplaceBadInput "boom") ∧
    EvalPanic.inplaceBadInput "boom" ≠ EvalPanic.unreachableInplace :=
  ⟨wpe_D, claim_C7.1 wOps wD wVars mapEmpty _ wpe_D⟩

/-- C8: every operation of the evaluator preserves the invariant that no
node identity is simultaneously a key of the Variable Map and a key of the
Output Cache: `perform_eval`, `eval_tensors`, `eval_tensors_ref` preserve
disjointness, and after `eval` the cache is cleared so the invariant holds
outright. -/
theorem claim_C8 :
    (∀ (ops : Ops) (target : Tensor) (vars : VariableMap) (memo : OutputMap)
       (v' : VariableMap) (m' : OutputMap),
      perform_eval ops target vars memo = .ok (v', m') →
        DisjointMaps vars memo → DisjointMaps v' m') ∧
    (∀ (ops : Ops) (ts : List Tensor) (vars : VariableMap) (memo : OutputMap)
       (res : List NdArray) (v' : VariableMap) (m' : OutputMap),
      eval_tensors ops ts vars memo = .ok (res, v', m') →
        DisjointMaps vars memo → DisjointMaps v' m') ∧
    (∀ (ops : Ops) (ts : List Tensor) (vars : VariableMap) (memo : OutputMap)
       (res : List NdArray) (v' : VariableMap) (m' : OutputMap),
      eval_tensors_ref ops ts vars memo = .ok (res, v', m') →
        DisjointMaps vars memo → DisjointMaps v' m') ∧
    (∀ (ops : Ops) (xs : List Tensor) (ctx : Context) (res : List NdArray)
       (ctx' : Context),
      eval ops xs ctx = .ok (res, ctx') →
        DisjointMaps ctx'.vars ctx'.outputs) :=
  ⟨fun _ _ _ _ _ _ h hd => perform_eval_disjoint h hd,
   fun _ _ _ _ _ _ _ h hd => eval_tensors_disjoint h hd,
   fun _ _ _ _ _ _ _ h hd => eval_tensors_ref_disjoint h hd,
   fun _ _ _ _ _ h => eval_disjoint h⟩

/-- Witness for C8: the in-place migration of the fixture chain keeps the
Variable Map and the cache disjoint. -/
theorem claim_C8_witness : DisjointMaps wVars2 mapEmpty :=
  claim_C8.1 wOps wC wVars mapEmpty wVars2 mapEmpty wpe_C (fun _ _ => rfl)

/-- C9 (amended): after the graph walk of `eval_tensors_ref` (which, like
every entry point, may migrate in-place storage), the read-out phase removes
nothing and clones nothing, so a repeated call with the same targets leaves
both maps unchanged and returns the same results. -/
theorem claim_C9 :
    ∀ (ops : Ops) (ts : List Tensor) (vars : VariableMap) (memo : OutputMap)
      (res : List NdArray) (v' : VariableMap) (m' : OutputMap),
      eval_tensors_ref ops ts vars memo = .ok (res, v', m') →
      eval_tensors_ref ops ts v' m' = .ok (res, v', m') :=
  fun _ _ _ _ _ _ _ h => eval_tensors_ref_idempotent h

/-- Counterexample for C9 as frozen: `eval_tensors_ref` on the in-place
chain removes the variable's entry from the Variable Map (the claim says it
removes no entry). -/
theorem counterexample_C9 :
    wVars wV = some [1, 1] ∧
    eval_tensors_ref wOps [wC] wVars mapEmpty = .ok ([[0, 0]], wVars2, mapEmpty) ∧
    wVars2 wV = none :=
  ⟨rfl, wref_C, rfl⟩

/-- Witness for C9: repeating the reference-returning call on the fixture
chain returns the same results and the same maps. -/
theorem claim_C9_witness :
    eval_tensors_ref wOps [wC] wVars2 mapEmpty = .ok ([[0, 0]], wVars2, mapEmpty) :=
  claim_C9 wOps [wC] wVars mapEmpty [[0, 0]] wVars2 mapEmpty wref_C

/-- C1 (amended): in every successful `eval_tensors` run, the requests
resolving to one owner all receive equal arrays; for an owner resolved from
the cache, exactly one request — the last in request order — receives the
physical original (flag `true`) and the other N−1 receive clones; for an
owner resident in the Variable Map, every request receives a clone of the
stored array (flag `false`) and the original never leaves the map. -/
theorem claim_C1 :
    ∀ (ops : Ops) (ts : List Tensor) (vars v1 : VariableMap)
      (memo m1 m2 : OutputMap) (o2a o2aF : OwnerMap) (owners : List Tensor)
      (out : List (NdArray × Bool)),
      perform_eval_list ops ts vars memo = .ok (v1, m1) →
      build_owners v1 ts m1 mapEmpty = .ok (m2, o2a, owners) →
      emit_results owners o2a = .ok (out, o2aF) →
      DisjointMaps v1 m1 →
      eval_tensors_cl ops ts vars memo = .ok (out, v1, m2) ∧
      owners.length = ts.length ∧ out.length = ts.length ∧
      ∀ k o, owners.get? k = some o →
        (∀ a, v1 o = some a → out.get? k = some (a, false)) ∧
        (v1 o = none → ∃ v, ∀ j, owners.get? j = some o →
          out.get? j = some (v, if o ∈ owners.drop (j + 1) then false else true)) := by
  intro ops ts vars v1 memo m1 m2 o2a o2aF owners out hlist hbuild hemit hdis
  obtain ⟨g', htab, hlen, hout, hvar, hflag⟩ := pipeline_table hbuild hemit
  refine ⟨eval_tensors_cl_intro hlist hbuild hemit, hlen,
    by rw [hout, expectedOut_length, hlen], ?_⟩
  intro k o hk
  have hmem : o ∈ owners := Tensor.mem_of_get?_eq_some hk
  constructor
  · intro a ha
    have hg : g' o = (a, false) := hvar hdis o a ha hmem
    rw [hout, expectedOut_get? g' owners k o hk, hg]
    by_cases hm : o ∈ owners.drop (k + 1) <;> simp [hm]
  · intro hnone
    have hf : (g' o).2 = true := hflag o hnone hmem
    refine ⟨(g' o).1, ?_⟩
    intro j hj
    rw [hout, expectedOut_get? g' owners j o hj]
    by_cases hm : o ∈ owners.drop (j + 1)
    · simp [hm]
    · simp only [if_neg hm]
      rw [← hf]

/-- Counterexample for C1 as frozen: requesting the same Variable-Map node
twice yields two arrays of which NEITHER is the original (both are flagged
as clones), while the original stays in the Variable Map — not "exactly one
original". -/
theorem counterexample_C1 :
    eval_tensors_cl wOps [wV, wV] wVars mapEmpty =
      .ok ([([1, 1], false), ([1, 1], false)], wVars, mapEmpty) ∧
    wVars wV = some [1, 1] := by
  refine ⟨?_, rfl⟩
  unfold eval_tensors_cl
  rw [wpel_VV]
  rfl

/-- Witness for C1: the second request for the shared variable receives a
clone of the stored `[1,1]`. -/
theorem claim_C1_witness :
    ([([1, 1], false), ([1, 1], false)] :
      List (NdArray × Bool)).get? 1 = some ([1, 1], false) :=
  ((claim_C1 wOps [wV, wV] wVars wVars mapEmpty mapEmpty mapEmpty _ _ [wV, wV]
      [([1, 1], false), ([1, 1], false)] wpel_VV rfl rfl
      (fun _ _ => rfl)).2.2.2 1 wV rfl).1 [1, 1] rfl

/-- C3 (amended): in every successful `eval_tensors` run, the resolution
loop removes each cache entry at most once and only for resolved owners
(Variable-Map entries are cloned, never removed — the Variable Map is not
touched, see the first conjunct of the run description), and when no two
requests share an owner every cache-resolved request receives the physical
original, i.e. zero clones are made for cache-resolved owners. -/
theorem claim_C3 :
    ∀ (ops : Ops) (ts : List Tensor) (vars v1 : VariableMap)
      (memo m1 m2 : OutputMap) (o2a o2aF : OwnerMap) (owners : List Tensor)
      (out : List (NdArray × Bool)),
      perform_eval_list ops ts vars memo = .ok (v1, m1) →
      build_owners v1 ts m1 mapEmpty = .ok (m2, o2a, owners) →
      emit_results owners o2a = .ok (out, o2aF) →
      eval_tensors_cl ops ts vars memo = .ok (out, v1, m2) ∧
      (∀ u, m2 u = m1 u ∨ (m2 u = none ∧ u ∈ owners)) ∧
      (owners.Nodup → ∀ k o, owners.get? k = some o → v1 o = none →
        ∃ v, out.get? k = some (v, true)) := by
  intro ops ts vars v1 memo m1 m2 o2a o2aF owners out hlist hbuild hemit
  refine ⟨eval_tensors_cl_intro hlist hbuild hemit,
    build_owners_memo_subset _ _ _ _ _ _ hbuild, ?_⟩
  intro hnd k o hk hnone
  obtain ⟨g', htab, hlen, hout, hvar, hflag⟩ := pipeline_table hbuild hemit
  have hmem : o ∈ owners := Tensor.mem_of_get?_eq_some hk
  have hf : (g' o).2 = true := hflag o hnone hmem
  have hnm := nodup_get?_not_mem_drop hnd k o hk
  refine ⟨(g' o).1, ?_⟩
  rw [hout, expectedOut_get? g' owners k o hk]
  simp only [if_neg hnm]
  rw [← hf]

/-- Counterexample for C3 as frozen: for a requested node resident in the
Variable Map, the first sight of the owner does NOT physically remove its
array from its source store — after `eval_tensors` the Variable Map still
holds the entry. -/
theorem counterexample_C3 :
    eval_tensors wOps [wV] wVars mapEmpty = .ok ([[1, 1]], wVars, mapEmpty) ∧
    wVars wV = some [1, 1] := by
  refine ⟨?_, rfl⟩
  unfold eval_tensors eval_tensors_cl
  rw [wpel_V]
  rfl

/-- Witness for C3: a single unshared cache-resolved request receives the
physical original — zero clones. -/
theorem claim_C3_witness :
    ∃ v, ([([1, 1], true)] : List (NdArray × Bool)).get? 0 = some (v, true) :=
  (claim_C3 wOps [wB] mapEmpty mapEmpty mapEmpty wMemoB (mapDel wMemoB wB)
      (mapUpd mapEmpty wB (([1, 1], true), 1)) _ [wB] [([1, 1], true)]
      wpel_B wbuild_B rfl).2.2 (by simp) 0 wB rfl rfl

/-- C10: a requested tensor resident in the Variable Map at resolution time
yields a clone of the stored array (its output is flagged as a clone with
the stored value) and the entry stays: the final Variable Map of the run is
the post-walk map `v1` in which the entry is untouched; moreover, when no
operator is in-place, the whole call leaves the Variable Map identical, so
only a successful in-place operator ever removes a variable's entry. -/
theorem claim_C10 :
    ∀ (ops : Ops) (ts : List Tensor) (vars v1 : VariableMap)
      (memo m1 m2 : OutputMap) (o2a o2aF : OwnerMap) (owners : List Tensor)
      (out : List (NdArray × Bool)),
      perform_eval_list ops ts vars memo = .ok (v1, m1) →
      build_owners v1 ts m1 mapEmpty = .ok (m2, o2a, owners) →
      emit_results owners o2a = .ok (out, o2aF) →
      DisjointMaps v1 m1 →
      eval_tensors_cl ops ts vars memo = .ok (out, v1, m2) ∧
      (∀ i t arr, ts.get? i = some t → v1 t = some arr →
        owners.get? i = some t ∧ out.get? i = some (arr, false)) ∧
      ((∀ n, (ops n).inplace = false) → v1 = vars) := by
  intro ops ts vars v1 memo m1 m2 o2a o2aF owners out hlist hbuild hemit hdis
  obtain ⟨g', htab, hlen, hout, hvar, hflag⟩ := pipeline_table hbuild hemit
  refine ⟨eval_tensors_cl_intro hlist hbuild hemit, ?_, ?_⟩
  · intro i t arr hi ha
    have hpos := build_owners_pos ts m1 mapEmpty m2 o2a owners hbuild i t hi
      (by simp [ha])
    refine ⟨hpos, ?_⟩
    have hmem : t ∈ owners := Tensor.mem_of_get?_eq_some hpos
    have hg : g' t = (arr, false) := hvar hdis t arr ha hmem
    rw [hout, expectedOut_get? g' owners i t hpos, hg]
    by_cases hm : t ∈ owners.drop (i + 1) <;> simp [hm]
  · intro hni
    exact perform_eval_list_vars_preserved hni hlist

/-- Witness for C10: directly requesting the fixture variable returns a
clone of `[1,1]`, flagged as a clone, with the variable as its own owner. -/
theorem claim_C10_witness :
    ([wV] : List Tensor).get? 0 = some wV ∧
    ([([1, 1], false)] : List (NdArray × Bool)).get? 0 = some ([1, 1], false) :=
  (claim_C10 wOps [wV] wVars wVars mapEmpty mapEmpty mapEmpty _ _ [wV]
      [([1, 1], false)] wpel_V rfl rfl (fun _ _ => rfl)).2.1 0 wV [1, 1] rfl rfl
